import Mathlib

/-!
Verification development for the rocketcan CAN library.

The Rust sources (signal_layout.rs, can_decoder.rs, can_encoder.rs,
canlog_reader.rs, canlog_writer.rs) are embedded shallowly:

* machine integers are `Nat` with explicit `% 2 ^ w` (resp. `% 256`)
  wherever the Rust code truncates (`as u8` casts, `u64` shifts that
  discard high bits);
* the 64 payload bytes of a frame are a function `Nat → Nat`;
* `f64` values that the claims treat only symbolically (timestamps,
  DBC factor/offset, physical signal values) are modelled as exact
  rationals `ℚ`; none of the verified statements depends on binary
  floating-point rounding;
* fallible Rust code returns `RustOutcome`, which distinguishes a
  returned `Err` from a Rust panic (out-of-bounds slice or index).
-/

namespace Rocketcan

/-- Outcome of running a fallible piece of Rust code: a returned value,
a returned error (`anyhow::Error`, carried as its message string), or a
Rust panic such as an out-of-bounds slice or array index. -/
inductive RustOutcome (α : Type) where
  | ok : α → RustOutcome α
  | error : String → RustOutcome α
  | panicked : RustOutcome α
deriving Repr, DecidableEq

/-- `can_dbc::ByteOrder`. -/
inductive ByteOrder where
  | bigEndian
  | littleEndian
deriving Repr, DecidableEq

/-- `can_dbc::ValueType`. -/
inductive ValueType where
  | signed
  | unsigned
deriving Repr, DecidableEq

/-- The fields of `can_dbc::Signal` that the rocketcan code reads.
`factor` and `offset` are `f64` in the schema; they are modelled as
exact rationals. -/
structure SignalSpec where
  name : String
  start_bit : Nat
  signal_size : Nat
  byte_order : ByteOrder
  value_type : ValueType
  factor : ℚ
  offset : ℚ
deriving DecidableEq

/-- The fields of `can_dbc::Message` that the rocketcan code reads. -/
structure MessageSpec where
  message_name : String
  message_size : Nat
  signals : List SignalSpec

/-- `CanFrame` (canlog_reader.rs).  `data` maps a byte index to a byte
value; indices `0..64` are meaningful, and parsing/encoding keep every
byte below 256.  The `f64` timestamp is modelled as an exact rational. -/
structure CanFrame where
  timestamp : ℚ
  channel : String
  id : Nat
  is_rx : Bool
  is_fd : Bool
  len : Nat
  data : Nat → Nat

/-- `impl Default for CanFrame` (canlog_reader.rs lines 32-45). -/
def CanFrame.default : CanFrame :=
  { timestamp := 0
    channel := ""
    id := 0
    is_rx := false
    is_fd := false
    len := 8
    data := fun _ => 0 }

/-- Write byte value `v` at index `i` of a payload buffer. -/
def updateByte (data : Nat → Nat) (i v : Nat) : Nat → Nat :=
  fun j => if j = i then v else data j

/-- `BitSpan` (signal_layout.rs): one contiguous run of bits within a
single payload byte. -/
structure BitSpan where
  byteIndex : Nat
  bitOffset : Nat
  numBits : Nat
  valueShift : Nat
deriving Repr, DecidableEq

/-- `SignalLayout` (signal_layout.rs). -/
structure SignalLayout where
  segments : List BitSpan
  signal_size : Nat
deriving Repr, DecidableEq

/-- The `((1u16 << num_bits) - 1) as u8` mask computed in
`SignalLayout::extract` and `SignalLayout::pack`. -/
def u8Mask (n : Nat) : Nat := ((1 <<< n) - 1) % 256

/-- Big-endian arm of the `SignalLayout::from_spec` loop
(signal_layout.rs lines 50-66).  `valueShift` stores `remaining` after
the subtraction, truncated by the `as u8` cast. -/
def buildSegmentsBE (byteIndex bitIndex remaining : Nat) : List BitSpan :=
  if h : remaining = 0 then []
  else
    { byteIndex := byteIndex
      bitOffset := bitIndex + 1 - min (bitIndex + 1) remaining
      numBits := min (bitIndex + 1) remaining
      valueShift := (remaining - min (bitIndex + 1) remaining) % 256 } ::
    buildSegmentsBE (byteIndex + 1) 7 (remaining - min (bitIndex + 1) remaining)
termination_by remaining
decreasing_by simp_wf; omega

/-- Little-endian arm of the `SignalLayout::from_spec` loop
(signal_layout.rs lines 68-86).  The `8 ≤ bitIndex` disjunct is
unreachable from `from_spec` (`bit_index` is `start_bit % 8` initially
and `0` afterwards); it only makes the Rust loop, which would fail to
make progress there, well-founded in Lean. -/
def buildSegmentsLE (byteIndex bitIndex remaining valueShift : Nat) : List BitSpan :=
  if h : remaining = 0 ∨ 8 ≤ bitIndex then []
  else
    { byteIndex := byteIndex
      bitOffset := bitIndex
      numBits := min (8 - bitIndex) remaining
      valueShift := valueShift % 256 } ::
    buildSegmentsLE (byteIndex + 1) 0 (remaining - min (8 - bitIndex) remaining)
      (valueShift + min (8 - bitIndex) remaining)
termination_by remaining
decreasing_by simp_wf; omega

/-- `SignalLayout::from_spec` (signal_layout.rs lines 43-93). -/
def SignalLayout.from_spec (spec : SignalSpec) : SignalLayout :=
  match spec.byte_order with
  | .bigEndian =>
      { segments := buildSegmentsBE (spec.start_bit / 8) (spec.start_bit % 8) spec.signal_size
        signal_size := spec.signal_size }
  | .littleEndian =>
      { segments := buildSegmentsLE (spec.start_bit / 8) (spec.start_bit % 8) spec.signal_size 0
        signal_size := spec.signal_size }

/-- The `extract` loop over the segments (signal_layout.rs lines 99-107),
with the `result |=` accumulation written as structural recursion.  The
`% 2 ^ 64` models the `u64` left shift discarding high bits. -/
def extractSegs (segs : List BitSpan) (data : Nat → Nat) : Nat :=
  match segs with
  | [] => 0
  | s :: rest =>
      ((((data s.byteIndex >>> s.bitOffset) &&& u8Mask s.numBits) <<< s.valueShift) % 2 ^ 64) |||
        extractSegs rest data

/-- `SignalLayout::extract`. -/
def SignalLayout.extract (l : SignalLayout) (data : Nat → Nat) : Nat :=
  extractSegs l.segments data

/-- The `pack` loop over the segments (signal_layout.rs lines 114-121).
For each span the target byte is cleared with `&= !(mask << bit_offset)`
(a `u8` complement, i.e. xor with 255) and the `u8`-cast slice of `raw`
is or-ed in. -/
def packSegs (segs : List BitSpan) (data : Nat → Nat) (raw : Nat) : Nat → Nat :=
  match segs with
  | [] => data
  | s :: rest =>
      packSegs rest
        (updateByte data s.byteIndex
          ((data s.byteIndex &&& (255 ^^^ ((u8Mask s.numBits <<< s.bitOffset) % 256))) |||
            ((((raw >>> s.valueShift) % 256) &&& u8Mask s.numBits) <<< s.bitOffset) % 256))
        raw

/-- `SignalLayout::pack`. -/
def SignalLayout.pack (l : SignalLayout) (data : Nat → Nat) (raw : Nat) : Nat → Nat :=
  packSegs l.segments data raw

/-- The all-zero 64-byte payload buffer (`[0u8; 64]`). -/
def zeroData : Nat → Nat := fun _ => 0

/-! ### The three decoders (can_decoder.rs, signal_layout.rs) -/

/-- Reinterpret a `u64` bit pattern as `i64` (the `as i64` cast). -/
def toInt64 (n : Nat) : Int := if n < 2 ^ 63 then (n : Int) else (n : Int) - 2 ^ 64

/-- `compute_signal_value` (can_decoder.rs lines 152-166).  The signed
branch is `((decoded_value as i64) << shift_len) >> shift_len`: an `i64`
left shift discards high bits (`% 2 ^ 64` on the bit pattern) and the
arithmetic right shift by `s` is floor division by `2 ^ s`. -/
def computeSignalValue (decodedValue : Nat) (spec : SignalSpec) : ℚ :=
  (match spec.value_type with
   | .signed =>
       ((Int.fdiv (toInt64 ((decodedValue <<< (64 - spec.signal_size)) % 2 ^ 64))
          (2 ^ (64 - spec.signal_size)) : Int) : ℚ)
   | .unsigned => (decodedValue : ℚ)) * spec.factor + spec.offset

/-- Big-endian bit loop of `decode_signal` (can_decoder.rs lines
110-122), with the two nested `while` loops written as one recursion:
when `bit_index` drops below zero the byte index advances and
`bit_index` resets to 7. -/
def decodeBitsBE (data : Nat → Nat) (byteIndex : Nat) (bitIndex : Int)
    (len : Nat) (result : Nat) : Nat :=
  if len = 0 then result
  else if bitIndex < 0 then decodeBitsBE data (byteIndex + 1) 7 len result
  else
    decodeBitsBE data byteIndex (bitIndex - 1) (len - 1)
      (((result <<< 1) % 2 ^ 64) ||| ((data byteIndex >>> bitIndex.toNat) &&& 1))
termination_by 2 * len + (if bitIndex < 0 then 1 else 0)
decreasing_by all_goals (simp_wf; split_ifs <;> omega)

/-- Little-endian bit loop of `decode_signal` (can_decoder.rs lines
124-142): each bit is or-ed in at position `signal_size - 1` after the
accumulator is shifted right. -/
def decodeBitsLE (data : Nat → Nat) (byteIndex : Nat) (bitIndex : Int)
    (signalSize len : Nat) (result : Nat) : Nat :=
  if len = 0 then result
  else if 7 < bitIndex then decodeBitsLE data (byteIndex + 1) 0 signalSize len result
  else
    decodeBitsLE data byteIndex (bitIndex + 1) signalSize (len - 1)
      ((result >>> 1) |||
        ((((data byteIndex >>> bitIndex.toNat) &&& 1) <<< (signalSize - 1)) % 2 ^ 64))
termination_by 2 * len + (if 7 < bitIndex then 1 else 0)
decreasing_by all_goals (simp_wf; split_ifs <;> omega)

/-- `decode_signal` (can_decoder.rs lines 97-148): bit-at-a-time
extraction followed by `compute_signal_value`. -/
def decode_signal (frame : CanFrame) (spec : SignalSpec) : ℚ :=
  match spec.byte_order with
  | .bigEndian =>
      computeSignalValue
        (decodeBitsBE frame.data (spec.start_bit / 8) ((spec.start_bit % 8 : Nat) : Int)
          spec.signal_size 0) spec
  | .littleEndian =>
      computeSignalValue
        (decodeBitsLE frame.data (spec.start_bit / 8) ((spec.start_bit % 8 : Nat) : Int)
          spec.signal_size spec.signal_size 0) spec

/-- The `masks` array of `decode_signal_by_bytes`. -/
def masksList : List Nat := [1, 3, 7, 15, 31, 63, 127, 255]

/-- Big-endian chunk loop of `decode_signal_by_bytes` (can_decoder.rs
lines 188-207).  The `bitIndex < 0` branch is unreachable from
`decode_signal_by_bytes` (`bit_index` is `start_bit % 8` initially and 7
afterwards); there the Rust code would panic indexing `masks` with a
negative `mask_index`, and the branch only serves well-foundedness.
The `bit_end` computation of that loop. -/
def beBitEnd (bitIndex : Int) (len : Nat) : Int :=
  if bitIndex + 1 - (len : Int) < 0 then 0 else bitIndex + 1 - (len : Int)

/-- The `incoming_bit_len` computation of the big-endian chunk loop. -/
def beIncoming (bitIndex : Int) (len : Nat) : Nat :=
  (bitIndex + 1 - beBitEnd bitIndex len).toNat

def decodeBytesBE (data : Nat → Nat) (byteIndex : Nat) (bitIndex : Int)
    (len : Nat) (result : Nat) : Nat :=
  if len = 0 then result
  else if bitIndex < 0 then result
  else
    decodeBytesBE data (byteIndex + 1) 7 (len - beIncoming bitIndex len)
      (((result <<< beIncoming bitIndex len) % 2 ^ 64) |||
        ((data byteIndex >>> (beBitEnd bitIndex len).toNat) &&&
          masksList.getD (beIncoming bitIndex len - 1) 0))
termination_by len
decreasing_by simp_wf; simp only [beIncoming, beBitEnd]; split <;> omega

/-- Little-endian chunk loop of `decode_signal_by_bytes` (can_decoder.rs
lines 209-227).  As in `decodeBytesBE`, the guard on `bitIndex` outside
`[0, 7]` is unreachable from the entry points and only serves
well-foundedness (the Rust code would panic there).
The `bit_end` computation of that loop. -/
def leBitEnd (bitIndex : Int) (len : Nat) : Int :=
  if 8 ≤ bitIndex + (len : Int) - 1 then 7 else bitIndex + (len : Int) - 1

/-- The `incoming_bit_len` computation of the little-endian chunk loop. -/
def leIncoming (bitIndex : Int) (len : Nat) : Nat :=
  (leBitEnd bitIndex len - bitIndex + 1).toNat

def decodeBytesLE (data : Nat → Nat) (byteIndex : Nat) (bitIndex : Int)
    (signalSize len : Nat) (result : Nat) : Nat :=
  if len = 0 then result
  else if bitIndex < 0 ∨ 7 < bitIndex then result
  else
    decodeBytesLE data (byteIndex + 1) 0 signalSize (len - leIncoming bitIndex len)
      (result |||
        ((((data byteIndex >>> bitIndex.toNat) &&&
            masksList.getD (leIncoming bitIndex len - 1) 0) <<<
          (signalSize - len)) % 2 ^ 64))
termination_by len
decreasing_by simp_wf; simp only [leIncoming, leBitEnd]; split <;> omega

/-- `decode_signal_by_bytes` (can_decoder.rs lines 170-231). -/
def decode_signal_by_bytes (frame : CanFrame) (spec : SignalSpec) : ℚ :=
  match spec.byte_order with
  | .bigEndian =>
      computeSignalValue
        (decodeBytesBE frame.data (spec.start_bit / 8) ((spec.start_bit % 8 : Nat) : Int)
          spec.signal_size 0) spec
  | .littleEndian =>
      computeSignalValue
        (decodeBytesLE frame.data (spec.start_bit / 8) ((spec.start_bit % 8 : Nat) : Int)
          spec.signal_size spec.signal_size 0) spec

/-- `SignalLayout::decode` (signal_layout.rs lines 127-138); its body
inlines exactly the formula of `compute_signal_value` applied to
`extract`. -/
def SignalLayout.decode (l : SignalLayout) (frame : CanFrame) (spec : SignalSpec) : ℚ :=
  computeSignalValue (l.extract frame.data) spec

/-! ### A common reference for the three decoders

`gatherBE`/`gatherLE` walk the DBC bit positions one bit at a time
(most-significant first for Motorola, least-significant first for
Intel).  They are not part of the source; each of the three decoders is
proved equal to them. -/

/-- Reference big-endian gatherer: `w` bits scanned downward from
`(b, i)`, first bit most significant. -/
def gatherBE (data : Nat → Nat) (b i : Nat) : Nat → Nat
  | 0 => 0
  | w + 1 =>
      ((data b >>> i) &&& 1) * 2 ^ w +
        (if i = 0 then gatherBE data (b + 1) 7 w else gatherBE data b (i - 1) w)

/-- Reference little-endian gatherer: `w` bits scanned upward from
`(b, i)`, first bit least significant. -/
def gatherLE (data : Nat → Nat) (b i : Nat) : Nat → Nat
  | 0 => 0
  | w + 1 =>
      ((data b >>> i) &&& 1) +
        2 * (if i = 7 then gatherLE data (b + 1) 0 w else gatherLE data b (i + 1) w)

/-- The Temperature signal of the motohawk sample schema: start bit 0,
12-bit big-endian signed, factor 0.01, offset 250. -/
def temperatureSpec : SignalSpec :=
  { name := "Temperature", start_bit := 0, signal_size := 12,
    byte_order := .bigEndian, value_type := .signed,
    factor := 1 / 100, offset := 250 }

/-- The golden motohawk frame `1F0#A5B6D90000000000` from the
repository's tests. -/
def goldenFrameA5 : CanFrame :=
  { CanFrame.default with data := fun j => [0xA5, 0xB6, 0xD9].getD j 0 }

/-! ### The candump and Vector ASCII parsers (canlog_reader.rs)

String handling is modelled on character lists; the split helpers are
written as structural recursions so that every parse is computable by
kernel reduction.  `str::split_whitespace` is modelled with Lean's
`Char.isWhitespace` (space, tab, newline selectors cover every
character appearing in CAN logs). -/

/-- Cut-off bound of `u32::from_str_radix`. -/
def u32Max : Nat := 4294967295

/-- One digit of `from_str_radix`: `0-9a-zA-Z`, valid below the radix. -/
def digitVal (radix : Nat) (c : Char) : Option Nat :=
  let d :=
    if c.toNat ≥ 48 ∧ c.toNat ≤ 57 then some (c.toNat - 48)
    else if c.toNat ≥ 97 ∧ c.toNat ≤ 122 then some (c.toNat - 97 + 10)
    else if c.toNat ≥ 65 ∧ c.toNat ≤ 90 then some (c.toNat - 65 + 10)
    else none
  match d with
  | some v => if v < radix then some v else none
  | none => none

/-- Accumulate the digits of `from_str_radix`; `none` on an invalid
digit or an empty digit string. -/
def digitsAccum (radix : Nat) : List Char → Option Nat
  | [] => none
  | cs => cs.foldl
      (fun acc c =>
        match acc, digitVal radix c with
        | some a, some v => some (a * radix + v)
        | _, _ => none)
      (some 0)

/-- `uN::from_str_radix`: optional leading `+`, at least one digit, all
digits valid in the radix, value at most `max` (overflow is an error). -/
def fromStrRadix (radix max : Nat) (s : String) : Option Nat :=
  let v :=
    match s.toList with
    | '+' :: rest => digitsAccum radix rest
    | cs => digitsAccum radix cs
  match v with
  | some v => if v ≤ max then some v else none
  | none => none

/-- `str::split_whitespace`, skipping empty tokens. -/
def splitWsAux : List Char → List Char → List String
  | [], cur => if cur.isEmpty then [] else [String.mk cur.reverse]
  | c :: rest, cur =>
      if c.isWhitespace then
        if cur.isEmpty then splitWsAux rest []
        else String.mk cur.reverse :: splitWsAux rest []
      else splitWsAux rest (c :: cur)

def splitWhitespace (s : String) : List String := splitWsAux s.toList []

/-- `str::split("##")`, specialised to the two-character separator. -/
def splitHashHashAux : List Char → List Char → List (List Char)
  | [], cur => [cur.reverse]
  | '#' :: '#' :: rest, cur => cur.reverse :: splitHashHashAux rest []
  | c :: rest, cur => splitHashHashAux rest (c :: cur)

def splitHashHash (s : String) : List String :=
  (splitHashHashAux s.toList []).map String.mk

/-- `str::split('#')`. -/
def splitHashAux : List Char → List Char → List (List Char)
  | [], cur => [cur.reverse]
  | '#' :: rest, cur => cur.reverse :: splitHashAux rest []
  | c :: rest, cur => splitHashAux rest (c :: cur)

def splitHash (s : String) : List String :=
  (splitHashAux s.toList []).map String.mk

/-- Decimal digit run to a natural number. -/
def digitsToNat (ds : List Char) : Nat :=
  ds.foldl (fun a c => a * 10 + (c.toNat - 48)) 0

/-- Model of `str::parse::<f64>` for the plain decimal and scientific
forms occurring in CAN logs: optional sign, digits with optional
fraction, optional exponent; at least one digit before or after the
point.  The special forms `inf`/`NaN` are not modelled.  The value is
kept as an exact rational; every verified statement uses only parse
success, never the value, so `f64` rounding is irrelevant here. -/
def parseF64 (s : String) : Option ℚ :=
  let cs := s.toList
  let signAndRest : ℚ × List Char :=
    match cs with
    | '-' :: rest => (-1, rest)
    | '+' :: rest => (1, rest)
    | _ => (1, cs)
  let sign := signAndRest.1
  let intPart := signAndRest.2.takeWhile Char.isDigit
  let afterInt := signAndRest.2.dropWhile Char.isDigit
  let fracAndRest : List Char × List Char :=
    match afterInt with
    | '.' :: rest => (rest.takeWhile Char.isDigit, rest.dropWhile Char.isDigit)
    | _ => ([], afterInt)
  let fracPart := fracAndRest.1
  if intPart.isEmpty ∧ fracPart.isEmpty then none
  else
    let mant : ℚ :=
      (digitsToNat intPart : ℚ) + (digitsToNat fracPart : ℚ) / (10 : ℚ) ^ fracPart.length
    match fracAndRest.2 with
    | [] => some (sign * mant)
    | e :: rest =>
        if e = 'e' ∨ e = 'E' then
          let esignAndRest : Int × List Char :=
            match rest with
            | '-' :: r => (-1, r)
            | '+' :: r => (1, r)
            | _ => (1, rest)
          let eds := esignAndRest.2.takeWhile Char.isDigit
          let left := esignAndRest.2.dropWhile Char.isDigit
          if eds.isEmpty ∨ ¬left.isEmpty then none
          else some (sign * mant * (10 : ℚ) ^ (esignAndRest.1 * (digitsToNat eds : Int)))
        else none

/-- The loop of `candump_hex_to_bytes` (canlog_reader.rs lines 69-84):
two hex characters per byte.  A trailing single character makes the
slice `&hex_str[i..i + 2]` run past the end (panic); a write at index
64 or beyond is an out-of-bounds array store (panic); an invalid digit
is a returned error (the `?`). -/
def candumpHexToBytesGo : List Char → Nat → (Nat → Nat) → RustOutcome (Nat → Nat)
  | [], _, dataBytes => .ok dataBytes
  | [_], _, _ => .panicked
  | c1 :: c2 :: rest, index, dataBytes =>
      match fromStrRadix 16 255 (String.mk [c1, c2]) with
      | none => .error "failed to parse data bytes"
      | some v =>
          if index ≥ 64 then .panicked
          else candumpHexToBytesGo rest (index + 1) (updateByte dataBytes index v)

/-- `candump_hex_to_bytes` (canlog_reader.rs lines 69-84). -/
def candump_hex_to_bytes (hexStr : String) : RustOutcome (Nat → Nat) :=
  candumpHexToBytesGo hexStr.toList 0 zeroData

/-- `parse_candump_line` (canlog_reader.rs lines 92-128).  Panics are
modelled where the Rust code indexes out of bounds: a timestamp token
shorter than two characters (`&timestamp[1..timestamp.len() - 1]`), a
third token without `#` (`id_and_data[1]`), an empty CAN FD payload
(`&id_and_data[1][1..]`), and inside `candump_hex_to_bytes`. -/
def parse_candump_line (line : String) : RustOutcome CanFrame :=
  match splitWhitespace line with
  | [] => .error "Error parsing timestamp"
  | timestamp :: rest1 =>
      if timestamp.toList.length < 2 then .panicked
      else
        match parseF64 (String.mk (timestamp.toList.drop 1).dropLast) with
        | none => .error "invalid float literal"
        | some ts =>
            match rest1 with
            | [] => .error "Error parsing interface"
            | interfaceName :: rest2 =>
                match rest2 with
                | [] => .error "Error no id and data"
                | idAndDataSubstr :: _ =>
                    let partsFd := splitHashHash idAndDataSubstr
                    let isFd := partsFd.length > 1
                    let parts := if isFd then partsFd else splitHash idAndDataSubstr
                    let startIdx := if isFd then 1 else 0
                    match parts with
                    | [] => .panicked
                    | idStr :: partsRest =>
                        match fromStrRadix 16 u32Max idStr with
                        | none => .error "invalid id"
                        | some id =>
                            match partsRest with
                            | [] => .panicked
                            | dataPart :: _ =>
                                if dataPart.toList.length < startIdx then .panicked
                                else
                                  let payload := String.mk (dataPart.toList.drop startIdx)
                                  match candump_hex_to_bytes payload with
                                  | .panicked => .panicked
                                  | .error e => .error e
                                  | .ok dataBytes =>
                                      .ok { timestamp := ts
                                            channel := interfaceName
                                            id := id
                                            is_rx := true
                                            is_fd := isFd
                                            len := (payload.toList.length / 2) % 256
                                            data := dataBytes }

/-- `AsciiBase` (canlog_reader.rs lines 131-135). -/
inductive AsciiBase where
  | hex
  | dec
deriving Repr, DecidableEq

/-- `parse_can_id` (canlog_reader.rs lines 138-146): extended ids end
in `x`, which is stripped before parsing. -/
def parse_can_id (item : String) (radix : Nat) : Option Nat :=
  if item.toList.getLast? = some 'x' then
    fromStrRadix radix u32Max (String.mk item.toList.dropLast)
  else fromStrRadix radix u32Max item

/-- `get_ascii_base` (canlog_reader.rs lines 149-170): the first header
line (the date) is read and discarded, the second supplies `base
hex|dec` as its second whitespace token. -/
def get_ascii_base (dateLine baseLine : String) : Except String AsciiBase :=
  let _ := dateLine
  match (splitWhitespace baseLine).get? 1 with
  | none => .error "could not parse ascii header 2nd line"
  | some radixStr =>
      if radixStr = "hex" then .ok .hex
      else if radixStr = "dec" then .ok .dec
      else .error ("Ascii base " ++ radixStr ++ " not one of [hex,dec]")

/-- `CanLogFormat` (canlog_reader.rs lines 263-269). -/
inductive CanLogFormat where
  | candump
  | vectorAscii
deriving Repr, DecidableEq

/-- The format and base selection of `CanLogParser::from_file`
(canlog_reader.rs lines 281-314), as a pure function of the file
extension and the two header lines.  After the header is parsed
successfully, line 302 (`ascii_base = Some(AsciiBase::Hex);`)
unconditionally overwrites the recorded base. -/
def canLogParserFromFileConfig (extension dateLine baseLine : String) :
    Except String (CanLogFormat × Option AsciiBase) :=
  if extension = "log" then .ok (.candump, none)
  else if extension = "asc" then
    match get_ascii_base dateLine baseLine with
    | .ok base =>
        let ascii_base := some base
        -- canlog_reader.rs line 302 overwrites the value just stored:
        let ascii_base := some AsciiBase.hex
        let _ := base
        .ok (.vectorAscii, ascii_base)
    | .error _ => .error "Invalid ascii header"
  else .error "CAN Log file extension not supported"

/-- The data-byte loop shared by `parse_ascii_can_2_0` and
`parse_ascii_can_fd` (canlog_reader.rs lines 227-233 and 253-258):
writes token `i` into `data[i]` while `i < len`; an invalid token is a
returned error, a write at index 64 or beyond is a panic. -/
def writeAsciiData : List String → Nat → Nat → Nat → (Nat → Nat) → RustOutcome (Nat → Nat)
  | [], _, _, _, data => .ok data
  | item :: rest, radix, len, i, data =>
      if i ≥ len then .ok data
      else
        match fromStrRadix radix 255 item with
        | none => .error "invalid data byte"
        | some v =>
            if i ≥ 64 then .panicked
            else writeAsciiData rest radix len (i + 1) (updateByte data i v)

/-- `parse_ascii_can_2_0` (canlog_reader.rs lines 210-235).  The caller
guarantees at least five tokens; the catch-all arm is unreachable. -/
def parse_ascii_can_2_0 (splits : List String) (radix : Nat) : RustOutcome CanFrame :=
  match splits with
  | s0 :: s1 :: s2 :: s3 :: s4 :: rest =>
      match parseF64 s0 with
      | none => .error "invalid float literal"
      | some ts =>
          match parse_can_id s2 radix with
          | none => .error "invalid id"
          | some id =>
              if s4 = "r" then
                .ok { CanFrame.default with
                      timestamp := ts, channel := s1, id := id,
                      is_rx := s3 = "Rx", len := 0 }
              else
                match rest with
                | [] => .error "Error parsing CAN 2.0"
                | s5 :: rest2 =>
                    match fromStrRadix 10 255 s5 with
                    | none => .error "invalid dlc"
                    | some len =>
                        match writeAsciiData rest2 radix len 0 zeroData with
                        | .panicked => .panicked
                        | .error e => .error e
                        | .ok dataBytes =>
                            .ok { CanFrame.default with
                                  timestamp := ts, channel := s1, id := id,
                                  is_rx := s3 = "Rx", len := len, data := dataBytes }
  | _ => .panicked

/-- `parse_ascii_can_fd` (canlog_reader.rs lines 240-261): positional
tokens, DLC at index 8, data from index 9. -/
def parse_ascii_can_fd (splits : List String) (radix : Nat) : RustOutcome CanFrame :=
  match splits with
  | s0 :: _s1 :: s2 :: s3 :: s4 :: rest =>
      match parseF64 s0 with
      | none => .error "invalid float literal"
      | some ts =>
          match parse_can_id s4 radix with
          | none => .error "invalid id"
          | some id =>
              match rest with
              | _f1 :: _f2 :: _kind :: lenStr :: rest9 =>
                  match fromStrRadix 10 255 lenStr with
                  | none => .error "invalid dlc"
                  | some len =>
                      match writeAsciiData rest9 radix len 0 zeroData with
                      | .panicked => .panicked
                      | .error e => .error e
                      | .ok dataBytes =>
                          .ok { CanFrame.default with
                                timestamp := ts, channel := s2, id := id,
                                is_rx := s3 = "Rx", is_fd := true,
                                len := len, data := dataBytes }
              | _ => .error "Error parsing CAN FD datalen"
  | _ => .panicked

/-- `parse_ascii_line` (canlog_reader.rs lines 184-205). -/
def parse_ascii_line (line : String) (base : AsciiBase) : RustOutcome CanFrame :=
  let radix := match base with | .hex => 16 | .dec => 10
  let splits := splitWhitespace line
  if splits.length < 5 then .error "Error parsing line"
  else if splits.getD 1 "" = "CANFD" then parse_ascii_can_fd splits radix
  else parse_ascii_can_2_0 splits radix

/-! ### The encoder (can_encoder.rs) -/

/-- `get_signal_spec` (can_decoder.rs lines 262-271): linear search by
name. -/
def get_signal_spec (messageSpec : MessageSpec) (signalName : String) : Option SignalSpec :=
  messageSpec.signals.find? (fun s => s.name = signalName)

/-- `f64::round`: round half away from zero. -/
def roundHalfAwayFromZero (q : ℚ) : Int :=
  if q ≥ 0 then ⌊q + 1 / 2⌋ else ⌈q - 1 / 2⌉

/-- Saturating `as i64` cast on an exact integer. -/
def saturateToI64 (x : Int) : Int :=
  max (-(2 ^ 63)) (min (2 ^ 63 - 1) x)

/-- `compute_raw_value` (can_encoder.rs lines 16-39).  The `f64`
arithmetic is modelled exactly over `ℚ` (the claims verified here do
not depend on the numeric raw value); `as i64` / `as u64` casts
saturate, and the two's-complement bit pattern of a signed raw value is
its value modulo `2 ^ 64`. -/
def compute_raw_value (physical : ℚ) (spec : SignalSpec) : Nat :=
  let rawF := (physical - spec.offset) / spec.factor
  match spec.value_type with
  | .signed =>
      let rawI := saturateToI64 (roundHalfAwayFromZero rawF)
      let bits := (rawI % (2 ^ 64 : Int)).toNat
      if spec.signal_size ≥ 64 then bits
      else bits % 2 ^ spec.signal_size
  | .unsigned =>
      let rawU := (min (roundHalfAwayFromZero rawF) (2 ^ 64 - 1)).toNat
      if spec.signal_size ≥ 64 then rawU
      else rawU % 2 ^ spec.signal_size

/-- The signal loop of `encode_message` (can_encoder.rs lines 57-63):
look each name up, build the layout, pack the raw value; an unknown
name is an error naming the signal. -/
def encodeSignalsLoop (messageSpec : MessageSpec) :
    List (String × ℚ) → CanFrame → Except String CanFrame
  | [], frame => .ok frame
  | (signalName, physicalValue) :: rest, frame =>
      match get_signal_spec messageSpec signalName with
      | none => .error ("unknown signal: " ++ signalName)
      | some spec =>
          encodeSignalsLoop messageSpec rest
            { frame with
              data := (SignalLayout.from_spec spec).pack frame.data
                (compute_raw_value physicalValue spec) }

/-- `encode_message` (can_encoder.rs lines 48-66).  The frame starts
from `CanFrame::default()` with the id set and
`len = *message_spec.message_size() as u8`. -/
def encode_message (messageSpec : MessageSpec) (signals : List (String × ℚ))
    (messageId : Nat) : Except String CanFrame :=
  encodeSignalsLoop messageSpec signals
    { CanFrame.default with id := messageId, len := messageSpec.message_size % 256 }

/-- `CanFrameBuilder` (can_encoder.rs lines 72-109). -/
structure CanFrameBuilder where
  message_spec : MessageSpec
  frame : CanFrame

/-- `CanFrameBuilder::new`. -/
def CanFrameBuilder.new (messageSpec : MessageSpec) (messageId : Nat) : CanFrameBuilder :=
  { message_spec := messageSpec
    frame := { CanFrame.default with id := messageId, len := messageSpec.message_size % 256 } }

/-- `CanFrameBuilder::set`. -/
def CanFrameBuilder.set (b : CanFrameBuilder) (signalName : String)
    (physicalValue : ℚ) : Except String CanFrameBuilder :=
  match get_signal_spec b.message_spec signalName with
  | none => .error ("unknown signal: " ++ signalName)
  | some spec =>
      .ok { b with
            frame := { b.frame with
              data := (SignalLayout.from_spec spec).pack b.frame.data
                (compute_raw_value physicalValue spec) } }

/-- `CanFrameBuilder::timestamp`. -/
def CanFrameBuilder.timestamp (b : CanFrameBuilder) (ts : ℚ) : CanFrameBuilder :=
  { b with frame := { b.frame with timestamp := ts } }

/-- `CanFrameBuilder::channel`. -/
def CanFrameBuilder.channel (b : CanFrameBuilder) (ch : String) : CanFrameBuilder :=
  { b with frame := { b.frame with channel := ch } }

/-- `CanFrameBuilder::build`. -/
def CanFrameBuilder.build (b : CanFrameBuilder) : CanFrame := b.frame

/-- Apply `CanFrameBuilder::set` for each pair in order (the moving
`.set(...)?` chain). -/
def builderSetAll : CanFrameBuilder → List (String × ℚ) → Except String CanFrameBuilder
  | b, [] => .ok b
  | b, (n, v) :: rest =>
      match b.set n v with
      | .error e => .error e
      | .ok b2 => builderSetAll b2 rest

/-- The first supplied signal name that `get_signal_spec` cannot find,
if any. -/
def firstUnknown (messageSpec : MessageSpec) : List (String × ℚ) → Option String
  | [] => none
  | (n, _) :: rest =>
      match get_signal_spec messageSpec n with
      | none => some n
      | some _ => firstUnknown messageSpec rest

/-- Does a bit span cover bit `k` of byte `j`? -/
def coversBit (seg : BitSpan) (j k : Nat) : Prop :=
  seg.byteIndex = j ∧ seg.bitOffset ≤ k ∧ k < seg.bitOffset + seg.numBits

/-! ### Concrete samples and projections used by witnesses -/

/-- Projection used to state counterexamples about parsed frames
without comparing whole frames (whose payload is a function). -/
def outcomeLenFd : RustOutcome CanFrame → Option (Nat × Bool)
  | .ok f => some (f.len, f.is_fd)
  | _ => none

/-- Projection of the parsed first data byte. -/
def outcomeData0 : RustOutcome CanFrame → Option Nat
  | .ok f => some (f.data 0)
  | _ => none

/-- Projection of an encoded frame's length. -/
def exceptFrameLen : Except String CanFrame → Option Nat
  | .ok f => some f.len
  | .error _ => none

/-- A width-0 signal spec (C7). -/
def zeroWidthSpec : SignalSpec :=
  { name := "w0", start_bit := 0, signal_size := 0,
    byte_order := .bigEndian, value_type := .unsigned, factor := 1, offset := 0 }

/-- A spec whose spans land beyond byte 63 (start bit 520 ⇒ byte 65). -/
def offEndSpec : SignalSpec :=
  { name := "far", start_bit := 520, signal_size := 8,
    byte_order := .bigEndian, value_type := .unsigned, factor := 1, offset := 0 }

/-- A message spec with declared byte size 256 and no signals (C8). -/
def bigMessageSpec : MessageSpec :=
  { message_name := "Big", message_size := 256, signals := [] }

/-- A message spec with declared byte size 9 holding only Temperature
(C8/C10 witnesses). -/
def nineByteMessageSpec : MessageSpec :=
  { message_name := "Nine", message_size := 9, signals := [temperatureSpec] }

/-! ### Basic facts about the layout machinery -/

theorem u8Mask_eq {n : Nat} (h : n ≤ 8) : u8Mask n = 2 ^ n - 1 := by
  have h2 : 2 ^ n ≤ 2 ^ 8 := Nat.pow_le_pow_right (by norm_num) h
  simp only [u8Mask, Nat.shiftLeft_eq, Nat.one_mul]
  exact Nat.mod_eq_of_lt (by omega)

theorem buildSegmentsBE_byteIndex_le {r b i : Nat} :
    ∀ s ∈ buildSegmentsBE b i r, b ≤ s.byteIndex := by
  induction r using Nat.strong_induction_on generalizing b i with
  | _ r ih =>
    rw [buildSegmentsBE]
    split
    · intro s hs; simp at hs
    · rename_i hr
      intro s hs
      rcases List.mem_cons.mp hs with h | h
      · subst h; simp
      · have := ih (r - min (i + 1) r) (by omega) (b := b + 1) (i := 7) s h
        omega

theorem buildSegmentsLE_byteIndex_le {r b i v : Nat} :
    ∀ s ∈ buildSegmentsLE b i r v, b ≤ s.byteIndex := by
  induction r using Nat.strong_induction_on generalizing b i v with
  | _ r ih =>
    rw [buildSegmentsLE]
    split
    · intro s hs; simp at hs
    · rename_i hr
      intro s hs
      rcases List.mem_cons.mp hs with h | h
      · subst h; simp
      · have := ih (r - min (8 - i) r) (by omega) (b := b + 1) (i := 0)
          (v := v + min (8 - i) r) s h
        omega

/-- `pack` never touches a byte outside the byte indices of its spans. -/
theorem packSegs_apply_of_ne {segs : List BitSpan} {data : Nat → Nat} {raw j : Nat}
    (h : ∀ s ∈ segs, s.byteIndex ≠ j) : packSegs segs data raw j = data j := by
  induction segs generalizing data with
  | nil => rfl
  | cons s rest ih =>
    simp only [packSegs]
    rw [ih (fun t ht => h t (List.mem_cons_of_mem s ht))]
    simp only [updateByte]
    rw [if_neg]
    exact fun hj => h s (List.mem_cons_self s rest) (by omega)

/-- Reading back the bit window that `pack` just wrote into a byte
recovers exactly the written slice of `raw`, whatever the previous byte
value `x` was (the clear step erases it). -/
theorem window_read_pack (x raw shift off n : Nat) (h8 : off + n ≤ 8) :
    (((x &&& (255 ^^^ ((u8Mask n <<< off) % 256))) |||
        ((((raw >>> shift) % 256) &&& u8Mask n) <<< off) % 256) >>> off) &&& u8Mask n
      = (raw >>> shift) % 2 ^ n := by
  have h255 : (255 : Nat) = 2 ^ 8 - 1 := by norm_num
  have h256 : (256 : Nat) = 2 ^ 8 := by norm_num
  rw [u8Mask_eq (by omega), h255, h256]
  apply Nat.eq_of_testBit_eq
  intro t
  simp only [Nat.testBit_and, Nat.testBit_or, Nat.testBit_xor, Nat.testBit_shiftRight,
    Nat.testBit_shiftLeft, Nat.testBit_mod_two_pow, Nat.testBit_two_pow_sub_one]
  by_cases htn : t < n
  · have hofft : off + t < 8 := by omega
    simp only [htn, decide_True, Bool.and_true, Bool.true_and, hofft, decide_True]
    have hle : off ≤ off + t := by omega
    simp only [hle, decide_True, Bool.true_and, Nat.add_sub_cancel_left]
    have : (off + t) - off = t := by omega
    simp only [this, htn, decide_True, Bool.and_true, Bool.true_and]
    cases hx : x.testBit (off + t)
    · simp only [hx, Bool.false_and, Bool.false_or]
      cases hr : raw.testBit (shift + t) <;> simp <;> omega
    · simp only [hx, Bool.true_and, Bool.and_true]
      cases hr : raw.testBit (shift + t) <;> simp <;> omega
  · simp [htn]

/-- Round trip through the big-endian spans: whatever buffer `pack`
starts from, `extract` recovers the low `r` bits of `raw`. -/
theorem extractSegs_packSegs_BE {r : Nat} :
    ∀ b i data raw, i ≤ 7 → r ≤ 64 →
      extractSegs (buildSegmentsBE b i r) (packSegs (buildSegmentsBE b i r) data raw)
        = raw % 2 ^ r := by
  induction r using Nat.strong_induction_on with
  | _ r ih =>
    intro b i data raw hi hr
    rw [buildSegmentsBE]
    split
    · rename_i hr0; subst hr0
      simp only [extractSegs, packSegs, pow_zero, Nat.mod_one]
    · rename_i hr0
      set n := min (i + 1) r with hn
      have hn1 : 1 ≤ n := by omega
      have hn8 : n ≤ 8 := by omega
      set r2 := r - n with hr2
      have hshift : (r - n) % 256 = r2 := by
        rw [← hr2]; exact Nat.mod_eq_of_lt (by omega)
      simp only [extractSegs, packSegs, hshift]
      set seg : BitSpan :=
        { byteIndex := b, bitOffset := i + 1 - n, numBits := n, valueShift := r2 } with hseg
      set data1 := updateByte data b
        ((data b &&& (255 ^^^ ((u8Mask n <<< (i + 1 - n)) % 256))) |||
          ((((raw >>> r2) % 256) &&& u8Mask n) <<< (i + 1 - n)) % 256) with hdata1
      have hrest : ∀ s ∈ buildSegmentsBE (b + 1) 7 r2, s.byteIndex ≠ b := by
        intro s hs
        have := buildSegmentsBE_byteIndex_le s hs
        omega
      have hbyte : packSegs (buildSegmentsBE (b + 1) 7 r2) data1 raw b = data1 b :=
        packSegs_apply_of_ne hrest
      rw [hbyte]
      have hdb : data1 b = (data b &&& (255 ^^^ ((u8Mask n <<< (i + 1 - n)) % 256))) |||
          ((((raw >>> r2) % 256) &&& u8Mask n) <<< (i + 1 - n)) % 256 := by
        simp [hdata1, updateByte]
      rw [hdb, window_read_pack _ _ _ _ _ (by omega)]
      have hmod : ((((raw >>> r2) % 2 ^ n) <<< r2) % 2 ^ 64) = ((raw >>> r2) % 2 ^ n) <<< r2 := by
        apply Nat.mod_eq_of_lt
        rw [Nat.shiftLeft_eq]
        calc ((raw >>> r2) % 2 ^ n) * 2 ^ r2 < 2 ^ n * 2 ^ r2 :=
              (Nat.mul_lt_mul_right (Nat.two_pow_pos r2)).mpr (Nat.mod_lt _ (Nat.two_pow_pos n))
          _ = 2 ^ (n + r2) := (pow_add 2 n r2).symm
          _ ≤ 2 ^ 64 := Nat.pow_le_pow_right (by norm_num) (by omega)
      rw [hmod, ih r2 (by omega) (b + 1) 7 data1 raw (by omega) (by omega)]
      rw [Nat.shiftLeft_eq, Nat.shiftRight_eq_div_pow]
      rw [Nat.mul_comm (raw / 2 ^ r2 % 2 ^ n) (2 ^ r2)]
      rw [← Nat.mul_add_lt_is_or (Nat.mod_lt _ (Nat.two_pow_pos r2)) _]
      have : 2 ^ r = 2 ^ r2 * 2 ^ n := by
        rw [← pow_add]; congr 1; omega
      rw [this, Nat.mod_mul]
      omega

/-- Round trip through the little-endian spans: `extract` after `pack`
recovers bits `[v, v + r)` of `raw`, in place. -/
theorem extractSegs_packSegs_LE {r : Nat} :
    ∀ b i v data raw, i ≤ 7 → v + r ≤ 64 →
      extractSegs (buildSegmentsLE b i r v) (packSegs (buildSegmentsLE b i r v) data raw)
        = 2 ^ v * (raw / 2 ^ v % 2 ^ r) := by
  induction r using Nat.strong_induction_on with
  | _ r ih =>
    intro b i v data raw hi hvr
    rw [buildSegmentsLE]
    split
    · rename_i h0
      have hr0 : r = 0 := by omega
      subst hr0
      simp only [extractSegs, packSegs, pow_zero, Nat.mod_one, Nat.mul_zero]
    · rename_i h0
      have hr0 : r ≠ 0 := by omega
      set n := min (8 - i) r with hn
      have hn1 : 1 ≤ n := by omega
      have hn8 : n ≤ 8 := by omega
      set r2 := r - n with hr2
      have hshift : v % 256 = v := Nat.mod_eq_of_lt (by omega)
      simp only [extractSegs, packSegs, hshift]
      set data1 := updateByte data b
        ((data b &&& (255 ^^^ ((u8Mask n <<< i) % 256))) |||
          ((((raw >>> v) % 256) &&& u8Mask n) <<< i) % 256) with hdata1
      have hrest : ∀ s ∈ buildSegmentsLE (b + 1) 0 r2 (v + n), s.byteIndex ≠ b := by
        intro s hs
        have := buildSegmentsLE_byteIndex_le s hs
        omega
      have hbyte : packSegs (buildSegmentsLE (b + 1) 0 r2 (v + n)) data1 raw b = data1 b :=
        packSegs_apply_of_ne hrest
      rw [hbyte]
      have hdb : data1 b = (data b &&& (255 ^^^ ((u8Mask n <<< i) % 256))) |||
          ((((raw >>> v) % 256) &&& u8Mask n) <<< i) % 256 := by
        simp [hdata1, updateByte]
      rw [hdb, window_read_pack _ _ _ _ _ (by omega)]
      have hmod : ((((raw >>> v) % 2 ^ n) <<< v) % 2 ^ 64) = ((raw >>> v) % 2 ^ n) <<< v := by
        apply Nat.mod_eq_of_lt
        rw [Nat.shiftLeft_eq]
        calc ((raw >>> v) % 2 ^ n) * 2 ^ v < 2 ^ n * 2 ^ v :=
              (Nat.mul_lt_mul_right (Nat.two_pow_pos v)).mpr (Nat.mod_lt _ (Nat.two_pow_pos n))
          _ = 2 ^ (n + v) := (pow_add 2 n v).symm
          _ ≤ 2 ^ 64 := Nat.pow_le_pow_right (by norm_num) (by omega)
      rw [hmod, ih r2 (by omega) (b + 1) 0 (v + n) data1 raw (by omega) (by omega)]
      rw [Nat.shiftLeft_eq, Nat.shiftRight_eq_div_pow]
      rw [Nat.or_comm]
      have hlt : raw / 2 ^ v % 2 ^ n * 2 ^ v < 2 ^ (v + n) := by
        rw [pow_add]
        calc raw / 2 ^ v % 2 ^ n * 2 ^ v < 2 ^ n * 2 ^ v :=
              (Nat.mul_lt_mul_right (Nat.two_pow_pos v)).mpr (Nat.mod_lt _ (Nat.two_pow_pos n))
          _ = 2 ^ v * 2 ^ n := by ring
      rw [← Nat.mul_add_lt_is_or hlt _]
      have hdd : raw / 2 ^ (v + n) = raw / 2 ^ v / 2 ^ n := by
        rw [Nat.div_div_eq_div_mul, ← pow_add]
      rw [hdd]
      have hsplit : 2 ^ (v + n) = 2 ^ v * 2 ^ n := pow_add 2 v n
      have hrn : 2 ^ r = 2 ^ n * 2 ^ r2 := by
        rw [← pow_add]; congr 1; omega
      rw [hsplit, hrn, Nat.mod_mul]
      ring

/-- C2: for every signal specification with `start_bit` in `0..=63`,
`width` in `1..=64` and either byte order, and every raw value fitting
in `width` bits, extracting after packing that raw into the all-zero
64-byte buffer through `SignalLayout::from_spec` returns the raw value:
`extract(pack(zero, raw)) == raw`. -/
theorem C2_extract_pack_zero_roundtrip (spec : SignalSpec) (raw : Nat)
    (hstart : spec.start_bit ≤ 63) (hw1 : 1 ≤ spec.signal_size)
    (hw : spec.signal_size ≤ 64) (hraw : raw < 2 ^ spec.signal_size) :
    (SignalLayout.from_spec spec).extract
      ((SignalLayout.from_spec spec).pack zeroData raw) = raw := by
  have hi : spec.start_bit % 8 ≤ 7 := by omega
  cases horder : spec.byte_order with
  | bigEndian =>
    simp only [SignalLayout.from_spec, horder, SignalLayout.extract, SignalLayout.pack]
    rw [extractSegs_packSegs_BE _ _ zeroData raw hi hw]
    exact Nat.mod_eq_of_lt hraw
  | littleEndian =>
    simp only [SignalLayout.from_spec, horder, SignalLayout.extract, SignalLayout.pack]
    rw [extractSegs_packSegs_LE _ _ 0 zeroData raw hi (by omega)]
    simpa using Nat.mod_eq_of_lt hraw

theorem gatherBE_lt (data : Nat → Nat) (b i w : Nat) : gatherBE data b i w < 2 ^ w := by
  induction w generalizing b i with
  | zero => simp [gatherBE]
  | succ w ih =>
    rw [gatherBE]
    have hb : (data b >>> i) &&& 1 ≤ 1 := Nat.and_le_right
    have hpow : 2 ^ (w + 1) = 2 ^ w + 2 ^ w := by ring
    rcases Nat.le_one_iff_eq_zero_or_eq_one.mp hb with h | h <;> rw [h] <;> split
    all_goals first
      | (have hg := ih (b + 1) 7; omega)
      | (have hg := ih b (i - 1); omega)

theorem gatherLE_lt (data : Nat → Nat) (b i w : Nat) : gatherLE data b i w < 2 ^ w := by
  induction w generalizing b i with
  | zero => simp [gatherLE]
  | succ w ih =>
    rw [gatherLE]
    have hb : (data b >>> i) &&& 1 ≤ 1 := Nat.and_le_right
    have hpow : 2 ^ (w + 1) = 2 ^ w + 2 ^ w := by ring
    split
    all_goals first
      | (have hg := ih (b + 1) 0; omega)
      | (have hg := ih b (i + 1); omega)

theorem natModSplitHigh (X : Nat) {n : Nat} (h : 1 ≤ n) :
    X % 2 ^ n = X / 2 ^ (n - 1) % 2 * 2 ^ (n - 1) + X % 2 ^ (n - 1) := by
  have h2 : 2 ^ n = 2 ^ (n - 1) * 2 := by
    rw [← pow_succ]; congr 1; omega
  rw [h2, Nat.mod_mul]; ring

theorem natModSplitLow (X : Nat) {n : Nat} (h : 1 ≤ n) :
    X % 2 ^ n = X % 2 + 2 * (X / 2 % 2 ^ (n - 1)) := by
  have h2 : 2 ^ n = 2 * 2 ^ (n - 1) := by
    conv_lhs => rw [show n = (n - 1) + 1 by omega]
    rw [pow_succ]
    ring
  rw [h2, Nat.mod_mul]

/-- One whole-byte chunk of the big-endian reference scan:
`min (i + 1) w` bits read downward from `(b, i)` land as the high part
of the gathered value. -/
theorem gatherBE_chunk (data : Nat → Nat) {b i w : Nat} (hw : 1 ≤ w) :
    gatherBE data b i w =
      ((data b >>> (i + 1 - min (i + 1) w)) % 2 ^ min (i + 1) w) * 2 ^ (w - min (i + 1) w) +
        gatherBE data (b + 1) 7 (w - min (i + 1) w) := by
  induction i generalizing w with
  | zero =>
    obtain ⟨w2, rfl⟩ : ∃ w2, w = w2 + 1 := ⟨w - 1, by omega⟩
    have hmin : min (0 + 1) (w2 + 1) = 1 := by omega
    rw [gatherBE, hmin]
    simp [Nat.and_one_is_mod]
  | succ i ih =>
    by_cases hw1 : w = 1
    · subst hw1
      have hmin : min (i + 1 + 1) 1 = 1 := by omega
      rw [gatherBE, hmin]
      simp [gatherBE, Nat.and_one_is_mod]
    · obtain ⟨w2, rfl⟩ : ∃ w2, w = w2 + 1 := ⟨w - 1, by omega⟩
      have hw2 : 1 ≤ w2 := by omega
      rw [gatherBE, if_neg (by omega : ¬(i + 1 = 0))]
      simp only [Nat.add_sub_cancel]
      rw [ih hw2]
      set n1 := min (i + 1) w2 with hn1
      have hn1l : 1 ≤ n1 := by omega
      have hmin : min (i + 1 + 1) (w2 + 1) = n1 + 1 := by omega
      rw [hmin]
      have hX : data b >>> (i + 1 + 1 - (n1 + 1)) = data b >>> (i + 1 - n1) := by
        congr 1; omega
      rw [hX, natModSplitHigh (data b >>> (i + 1 - n1)) (n := n1 + 1) (by omega)]
      have hsimp : n1 + 1 - 1 = n1 := by omega
      rw [hsimp]
      have hdiv : data b >>> (i + 1 - n1) / 2 ^ n1 = data b >>> (i + 1) := by
        rw [Nat.shiftRight_eq_div_pow, Nat.shiftRight_eq_div_pow, Nat.div_div_eq_div_mul,
          ← pow_add]
        congr 2
        omega
      rw [hdiv]
      have hsub : w2 + 1 - (n1 + 1) = w2 - n1 := by omega
      rw [hsub]
      have hmod2 : data b >>> (i + 1) % 2 = (data b >>> (i + 1)) &&& 1 :=
        (Nat.and_one_is_mod _).symm
      rw [hmod2]
      have hpow : 2 ^ n1 * 2 ^ (w2 - n1) = 2 ^ w2 := by
        rw [← pow_add]; congr 1; omega
      calc ((data b >>> (i + 1)) &&& 1) * 2 ^ w2 +
            ((data b >>> (i + 1 - n1)) % 2 ^ n1 * 2 ^ (w2 - n1) +
              gatherBE data (b + 1) 7 (w2 - n1))
          = ((data b >>> (i + 1)) &&& 1) * (2 ^ n1 * 2 ^ (w2 - n1)) +
            ((data b >>> (i + 1 - n1)) % 2 ^ n1 * 2 ^ (w2 - n1) +
              gatherBE data (b + 1) 7 (w2 - n1)) := by rw [hpow]
        _ = (((data b >>> (i + 1)) &&& 1) * 2 ^ n1 +
              (data b >>> (i + 1 - n1)) % 2 ^ n1) * 2 ^ (w2 - n1) +
            gatherBE data (b + 1) 7 (w2 - n1) := by ring

/-- One whole-byte chunk of the little-endian reference scan:
`min (8 - i) w` bits read upward from `(b, i)` land as the low part of
the gathered value. -/
theorem gatherLE_chunk (data : Nat → Nat) {b i w : Nat} (hi : i ≤ 7) (hw : 1 ≤ w) :
    gatherLE data b i w =
      (data b >>> i) % 2 ^ min (8 - i) w +
        2 ^ min (8 - i) w * gatherLE data (b + 1) 0 (w - min (8 - i) w) := by
  induction w generalizing i with
  | zero => omega
  | succ w ih =>
    by_cases hi7 : i = 7
    · subst hi7
      have hmin : min (8 - 7) (w + 1) = 1 := by omega
      rw [gatherLE, hmin]
      simp [Nat.and_one_is_mod]
    · by_cases hw0 : w = 0
      · subst hw0
        have hmin : min (8 - i) 1 = 1 := by omega
        rw [gatherLE, hmin]
        simp [gatherLE, Nat.and_one_is_mod]
      · rw [gatherLE, if_neg (by omega : ¬(i = 7))]
        rw [ih (by omega) (by omega)]
        set n1 := min (8 - (i + 1)) w with hn1
        have hn1l : 1 ≤ n1 := by omega
        have hmin : min (8 - i) (w + 1) = n1 + 1 := by omega
        rw [hmin]
        rw [natModSplitLow (data b >>> i) (n := n1 + 1) (by omega)]
        have hsimp : n1 + 1 - 1 = n1 := by omega
        rw [hsimp]
        have hdiv : data b >>> i / 2 = data b >>> (i + 1) := by
          rw [Nat.shiftRight_eq_div_pow, Nat.shiftRight_eq_div_pow, Nat.div_div_eq_div_mul,
            ← pow_succ]
        rw [hdiv]
        have hmod2 : (data b >>> i) % 2 = (data b >>> i) &&& 1 :=
          (Nat.and_one_is_mod _).symm
        rw [hmod2]
        have hsub : w + 1 - (n1 + 1) = w - n1 := by omega
        rw [hsub]
        have hpow : 2 ^ (n1 + 1) = 2 * 2 ^ n1 := by ring
        rw [hpow]
        ring

/-- The `masks` array holds `2 ^ n - 1` at index `n - 1`. -/
theorem masksList_getD {n : Nat} (h1 : 1 ≤ n) (h8 : n ≤ 8) :
    masksList.getD (n - 1) 0 = 2 ^ n - 1 := by
  interval_cases n <;> rfl

theorem or_eq_add_of_lt {a b k : Nat} (h : b < 2 ^ k) : (a * 2 ^ k) ||| b = a * 2 ^ k + b := by
  rw [Nat.mul_comm a (2 ^ k)]
  exact (Nat.mul_add_lt_is_or h a).symm

theorem mul_two_or_eq_add {acc bit : Nat} (h : bit ≤ 1) : (acc * 2) ||| bit = acc * 2 + bit := by
  have h1 : acc * 2 = acc * 2 ^ 1 := by norm_num
  have h2 : bit < 2 ^ 1 := by rw [pow_one]; omega
  rw [h1, or_eq_add_of_lt h2]

theorem beIncoming_eq {i w : Nat} (hw : 1 ≤ w) :
    beIncoming ((i : Nat) : Int) w = min (i + 1) w := by
  simp only [beIncoming, beBitEnd]
  split <;> omega

theorem beBitEnd_toNat {i w : Nat} (hw : 1 ≤ w) :
    (beBitEnd ((i : Nat) : Int) w).toNat = i + 1 - min (i + 1) w := by
  simp only [beBitEnd]
  split <;> omega

theorem leIncoming_eq {i w : Nat} (hi : i ≤ 7) (hw : 1 ≤ w) :
    leIncoming ((i : Nat) : Int) w = min (8 - i) w := by
  simp only [leIncoming, leBitEnd]
  split <;> omega

theorem decodeBitsBE_advance (data : Nat → Nat) (b w acc : Nat) :
    decodeBitsBE data b (-1) w acc = decodeBitsBE data (b + 1) ((7 : Nat) : Int) w acc := by
  by_cases h : w = 0
  · subst h
    conv_lhs => rw [decodeBitsBE]
    conv_rhs => rw [decodeBitsBE]
    simp
  · conv_lhs => rw [decodeBitsBE]
    rw [if_neg h, if_pos (by norm_num : (-1 : Int) < 0)]
    norm_num

theorem decodeBitsLE_advance (data : Nat → Nat) (b size w acc : Nat) :
    decodeBitsLE data b 8 size w acc = decodeBitsLE data (b + 1) ((0 : Nat) : Int) size w acc := by
  by_cases h : w = 0
  · subst h
    conv_lhs => rw [decodeBitsLE]
    conv_rhs => rw [decodeBitsLE]
    simp
  · conv_lhs => rw [decodeBitsLE]
    rw [if_neg h, if_pos (by norm_num : (7 : Int) < 8)]
    norm_num

/-- The bit-at-a-time big-endian loop of `decode_signal` computes the
reference big-endian gather, Horner-style. -/
theorem decodeBitsBE_eq (data : Nat → Nat) :
    ∀ w b i acc : Nat, i ≤ 7 → w ≤ 64 → acc < 2 ^ (64 - w) →
      decodeBitsBE data b ((i : Nat) : Int) w acc = acc * 2 ^ w + gatherBE data b i w := by
  intro w
  induction w with
  | zero =>
    intro b i acc _ _ _
    rw [decodeBitsBE, if_pos rfl]
    simp [gatherBE]
  | succ w ih =>
    intro b i acc hi hw hacc
    rw [decodeBitsBE, if_neg (by omega : ¬(w + 1 = 0)),
      if_neg (by omega : ¬(((i : Nat) : Int) < 0))]
    have htoNat : ((i : Nat) : Int).toNat = i := by omega
    rw [htoNat]
    have hsub : w + 1 - 1 = w := by omega
    rw [hsub]
    have hbit : (data b >>> i) &&& 1 ≤ 1 := Nat.and_le_right
    have hshl : (acc <<< 1) % 2 ^ 64 = acc * 2 := by
      rw [Nat.shiftLeft_eq, pow_one]
      apply Nat.mod_eq_of_lt
      have h1 : 2 ^ (64 - (w + 1)) * 2 ≤ 2 ^ 64 := by
        rw [← pow_succ]
        exact Nat.pow_le_pow_right (by norm_num) (by omega)
      omega
    rw [hshl, mul_two_or_eq_add hbit]
    have hacc2 : acc * 2 + ((data b >>> i) &&& 1) < 2 ^ (64 - w) := by
      have h2 : 2 ^ (64 - (w + 1)) * 2 = 2 ^ (64 - w) := by
        rw [← pow_succ]; congr 1; omega
      omega
    by_cases hi0 : i = 0
    · subst hi0
      have hm1 : ((0 : Nat) : Int) - 1 = -1 := by norm_num
      rw [hm1, decodeBitsBE_advance]
      rw [ih (b + 1) 7 _ (by omega) (by omega) hacc2]
      rw [gatherBE, if_pos rfl, pow_succ]
      ring
    · have hm1 : ((i : Nat) : Int) - 1 = (((i - 1 : Nat)) : Int) := by omega
      rw [hm1, ih b (i - 1) _ (by omega) (by omega) hacc2]
      rw [gatherBE, if_neg hi0, pow_succ]
      ring

/-- The bit-at-a-time little-endian loop of `decode_signal` computes
the reference little-endian gather, shifted to the top `signalSize`
bits and falling into place as the loop finishes. -/
theorem decodeBitsLE_eq (data : Nat → Nat) (size : Nat) (hsize : size ≤ 64) :
    ∀ w b i acc : Nat, i ≤ 7 → w ≤ size → acc < 2 ^ size →
      decodeBitsLE data b ((i : Nat) : Int) size w acc
        = acc / 2 ^ w + gatherLE data b i w * 2 ^ (size - w) := by
  intro w
  induction w with
  | zero =>
    intro b i acc _ _ _
    rw [decodeBitsLE, if_pos rfl]
    simp [gatherLE]
  | succ w ih =>
    intro b i acc hi hw hacc
    rw [decodeBitsLE, if_neg (by omega : ¬(w + 1 = 0)),
      if_neg (by omega : ¬(7 < ((i : Nat) : Int)))]
    have htoNat : ((i : Nat) : Int).toNat = i := by omega
    rw [htoNat]
    have hsub : w + 1 - 1 = w := by omega
    rw [hsub]
    have hsize1 : 1 ≤ size := by omega
    have hbit : (data b >>> i) &&& 1 ≤ 1 := Nat.and_le_right
    have hple : 2 ^ (size - 1) * 2 = 2 ^ size := by
      rw [← pow_succ]; congr 1; omega
    have hp64 : 2 ^ size ≤ 2 ^ 64 := Nat.pow_le_pow_right (by norm_num) hsize
    have hbitmul : ((data b >>> i) &&& 1) * 2 ^ (size - 1) ≤ 2 ^ (size - 1) := by
      calc ((data b >>> i) &&& 1) * 2 ^ (size - 1) ≤ 1 * 2 ^ (size - 1) :=
            Nat.mul_le_mul_right _ hbit
        _ = 2 ^ (size - 1) := Nat.one_mul _
    have hshl : (((data b >>> i) &&& 1) <<< (size - 1)) % 2 ^ 64
        = ((data b >>> i) &&& 1) * 2 ^ (size - 1) := by
      rw [Nat.shiftLeft_eq]
      apply Nat.mod_eq_of_lt
      omega
    have hshr : acc >>> 1 = acc / 2 := by
      rw [Nat.shiftRight_eq_div_pow, pow_one]
    rw [hshl, hshr]
    have hdivlt : acc / 2 < 2 ^ (size - 1) := by omega
    have hor : (acc / 2) ||| (((data b >>> i) &&& 1) * 2 ^ (size - 1))
        = ((data b >>> i) &&& 1) * 2 ^ (size - 1) + acc / 2 := by
      rw [Nat.or_comm]
      have h2 : ((data b >>> i) &&& 1) * 2 ^ (size - 1) ||| (acc / 2)
          = ((data b >>> i) &&& 1) * 2 ^ (size - 1) + acc / 2 :=
        or_eq_add_of_lt hdivlt
      exact h2
    rw [hor]
    have hacc2 : ((data b >>> i) &&& 1) * 2 ^ (size - 1) + acc / 2 < 2 ^ size := by omega
    have hdiv : (((data b >>> i) &&& 1) * 2 ^ (size - 1) + acc / 2) / 2 ^ w
        = ((data b >>> i) &&& 1) * 2 ^ (size - 1 - w) + acc / 2 ^ (w + 1) := by
      have e1 : 2 ^ (size - 1) = 2 ^ (size - 1 - w) * 2 ^ w := by
        rw [← pow_add]; congr 1; omega
      rw [e1, ← Nat.mul_assoc, Nat.add_comm, Nat.add_mul_div_right _ _ (Nat.two_pow_pos w)]
      rw [Nat.div_div_eq_div_mul]
      have e2 : 2 * 2 ^ w = 2 ^ (w + 1) := by rw [pow_succ]; ring
      rw [e2]
      ring
    have epow : 2 ^ (size - w - 1) * 2 = 2 ^ (size - w) := by
      rw [← pow_succ]; congr 1; omega
    have esub : size - (w + 1) = size - w - 1 := by omega
    have esub2 : size - 1 - w = size - w - 1 := by omega
    by_cases hi7 : i = 7
    · subst hi7
      have h8 : ((7 : Nat) : Int) + 1 = 8 := by norm_num
      rw [h8, decodeBitsLE_advance]
      rw [ih (b + 1) 0 _ (by omega) (by omega) hacc2]
      rw [hdiv, gatherLE, if_pos rfl, esub, esub2, ← epow]
      ring
    · have hp1 : ((i : Nat) : Int) + 1 = (((i + 1 : Nat)) : Int) := by omega
      rw [hp1, ih b (i + 1) _ (by omega) (by omega) hacc2]
      rw [hdiv, gatherLE, if_neg hi7, esub, esub2, ← epow]
      ring

/-- The byte-at-a-time big-endian loop of `decode_signal_by_bytes`
also computes the reference big-endian gather. -/
theorem decodeBytesBE_eq (data : Nat → Nat) :
    ∀ w b i acc : Nat, i ≤ 7 → w ≤ 64 → acc < 2 ^ (64 - w) →
      decodeBytesBE data b ((i : Nat) : Int) w acc = acc * 2 ^ w + gatherBE data b i w := by
  intro w
  induction w using Nat.strong_induction_on with
  | _ w ih =>
    intro b i acc hi hw hacc
    by_cases hw0 : w = 0
    · subst hw0
      rw [decodeBytesBE, if_pos rfl]
      simp [gatherBE]
    · rw [decodeBytesBE, if_neg hw0, if_neg (by omega : ¬(((i : Nat) : Int) < 0))]
      rw [beIncoming_eq (by omega), beBitEnd_toNat (by omega)]
      set n := min (i + 1) w with hn
      have hn1 : 1 ≤ n := by omega
      have hn8 : n ≤ 8 := by omega
      rw [masksList_getD hn1 hn8, Nat.and_pow_two_sub_one_eq_mod]
      set chunk := data b >>> (i + 1 - n) % 2 ^ n with hchunk
      have hchunklt : chunk < 2 ^ n := Nat.mod_lt _ (Nat.two_pow_pos n)
      have hshl : (acc <<< n) % 2 ^ 64 = acc * 2 ^ n := by
        rw [Nat.shiftLeft_eq]
        apply Nat.mod_eq_of_lt
        calc acc * 2 ^ n < 2 ^ (64 - w) * 2 ^ n :=
              (Nat.mul_lt_mul_right (Nat.two_pow_pos n)).mpr hacc
          _ = 2 ^ (64 - w + n) := (pow_add 2 _ _).symm
          _ ≤ 2 ^ 64 := Nat.pow_le_pow_right (by norm_num) (by omega)
      rw [hshl, or_eq_add_of_lt hchunklt]
      have hacc2 : acc * 2 ^ n + chunk < 2 ^ (64 - (w - n)) := by
        have e : 2 ^ (64 - w) * 2 ^ n = 2 ^ (64 - (w - n)) := by
          rw [← pow_add]; congr 1; omega
        have h1 : (acc + 1) * 2 ^ n ≤ 2 ^ (64 - w) * 2 ^ n :=
          Nat.mul_le_mul_right _ hacc
        have h2 : acc * 2 ^ n + 2 ^ n = (acc + 1) * 2 ^ n := by ring
        omega
      have hc7 : (7 : Int) = ((7 : Nat) : Int) := by norm_num
      rw [hc7, ih (w - n) (by omega) (b + 1) 7 _ (by omega) (by omega) hacc2]
      rw [gatherBE_chunk data (by omega : 1 ≤ w), ← hn, ← hchunk]
      have e2 : 2 ^ n * 2 ^ (w - n) = 2 ^ w := by
        rw [← pow_add]; congr 1; omega
      rw [← e2]
      ring

/-- The byte-at-a-time little-endian loop of `decode_signal_by_bytes`
also computes the reference little-endian gather. -/
theorem decodeBytesLE_eq (data : Nat → Nat) (size : Nat) (hsize : size ≤ 64) :
    ∀ w b i acc : Nat, i ≤ 7 → w ≤ size → acc < 2 ^ (size - w) →
      decodeBytesLE data b ((i : Nat) : Int) size w acc
        = acc + gatherLE data b i w * 2 ^ (size - w) := by
  intro w
  induction w using Nat.strong_induction_on with
  | _ w ih =>
    intro b i acc hi hw hacc
    by_cases hw0 : w = 0
    · subst hw0
      rw [decodeBytesLE, if_pos rfl]
      simp [gatherLE]
    · rw [decodeBytesLE, if_neg hw0,
        if_neg (by omega : ¬(((i : Nat) : Int) < 0 ∨ 7 < ((i : Nat) : Int)))]
      have htoNat : ((i : Nat) : Int).toNat = i := by omega
      rw [leIncoming_eq hi (by omega), htoNat]
      set n := min (8 - i) w with hn
      have hn1 : 1 ≤ n := by omega
      have hn8 : n ≤ 8 := by omega
      rw [masksList_getD hn1 hn8, Nat.and_pow_two_sub_one_eq_mod]
      set chunk := data b >>> i % 2 ^ n with hchunk
      have hchunklt : chunk < 2 ^ n := Nat.mod_lt _ (Nat.two_pow_pos n)
      have hshl : (chunk <<< (size - w)) % 2 ^ 64 = chunk * 2 ^ (size - w) := by
        rw [Nat.shiftLeft_eq]
        apply Nat.mod_eq_of_lt
        calc chunk * 2 ^ (size - w) < 2 ^ n * 2 ^ (size - w) :=
              (Nat.mul_lt_mul_right (Nat.two_pow_pos (size - w))).mpr hchunklt
          _ = 2 ^ (n + (size - w)) := (pow_add 2 _ _).symm
          _ ≤ 2 ^ 64 := Nat.pow_le_pow_right (by norm_num) (by omega)
      rw [hshl]
      have hor : acc ||| (chunk * 2 ^ (size - w)) = chunk * 2 ^ (size - w) + acc := by
        rw [Nat.or_comm]
        exact or_eq_add_of_lt hacc
      rw [hor]
      have hacc2 : chunk * 2 ^ (size - w) + acc < 2 ^ (size - (w - n)) := by
        have e : 2 ^ n * 2 ^ (size - w) = 2 ^ (size - (w - n)) := by
          rw [← pow_add]; congr 1; omega
        have h1 : (chunk + 1) * 2 ^ (size - w) ≤ 2 ^ n * 2 ^ (size - w) :=
          Nat.mul_le_mul_right _ hchunklt
        have h2 : chunk * 2 ^ (size - w) + 2 ^ (size - w) = (chunk + 1) * 2 ^ (size - w) := by
          ring
        omega
      have hc0 : (0 : Int) = ((0 : Nat) : Int) := by norm_num
      rw [hc0, ih (w - n) (by omega) (b + 1) 0 _ (by omega) (by omega) hacc2]
      rw [gatherLE_chunk data hi (by omega : 1 ≤ w), ← hn, ← hchunk]
      have e2 : 2 ^ n * 2 ^ (size - w) = 2 ^ (size - (w - n)) := by
        rw [← pow_add]; congr 1; omega
      rw [← e2]
      ring

/-- The big-endian span extraction of `SignalLayout` equals the
reference big-endian gather. -/
theorem extractSegs_buildBE (data : Nat → Nat) :
    ∀ w b i : Nat, i ≤ 7 → w ≤ 64 →
      extractSegs (buildSegmentsBE b i w) data = gatherBE data b i w := by
  intro w
  induction w using Nat.strong_induction_on with
  | _ w ih =>
    intro b i hi hw
    by_cases hw0 : w = 0
    · subst hw0
      rw [buildSegmentsBE]
      simp [extractSegs, gatherBE]
    · rw [buildSegmentsBE, dif_neg hw0]
      simp only [extractSegs]
      set n := min (i + 1) w with hn
      have hn1 : 1 ≤ n := by omega
      have hn8 : n ≤ 8 := by omega
      have hvs : (w - n) % 256 = w - n := Nat.mod_eq_of_lt (by omega)
      rw [hvs, u8Mask_eq hn8, Nat.and_pow_two_sub_one_eq_mod]
      set chunk := data b >>> (i + 1 - n) % 2 ^ n with hchunk
      have hchunklt : chunk < 2 ^ n := Nat.mod_lt _ (Nat.two_pow_pos n)
      have hshl : (chunk <<< (w - n)) % 2 ^ 64 = chunk * 2 ^ (w - n) := by
        rw [Nat.shiftLeft_eq]
        apply Nat.mod_eq_of_lt
        calc chunk * 2 ^ (w - n) < 2 ^ n * 2 ^ (w - n) :=
              (Nat.mul_lt_mul_right (Nat.two_pow_pos (w - n))).mpr hchunklt
          _ = 2 ^ (n + (w - n)) := (pow_add 2 _ _).symm
          _ ≤ 2 ^ 64 := Nat.pow_le_pow_right (by norm_num) (by omega)
      rw [hshl, ih (w - n) (by omega) (b + 1) 7 (by omega) (by omega)]
      rw [or_eq_add_of_lt (gatherBE_lt data (b + 1) 7 (w - n))]
      rw [gatherBE_chunk data (by omega : 1 ≤ w), ← hn, ← hchunk]

/-- The little-endian span extraction of `SignalLayout` equals the
reference little-endian gather, shifted into place. -/
theorem extractSegs_buildLE (data : Nat → Nat) :
    ∀ w b i v : Nat, i ≤ 7 → v + w ≤ 64 →
      extractSegs (buildSegmentsLE b i w v) data = gatherLE data b i w * 2 ^ v := by
  intro w
  induction w using Nat.strong_induction_on with
  | _ w ih =>
    intro b i v hi hvw
    by_cases hw0 : w = 0
    · subst hw0
      rw [buildSegmentsLE]
      simp [extractSegs, gatherLE]
    · rw [buildSegmentsLE, dif_neg (by omega : ¬(w = 0 ∨ 8 ≤ i))]
      simp only [extractSegs]
      set n := min (8 - i) w with hn
      have hn1 : 1 ≤ n := by omega
      have hn8 : n ≤ 8 := by omega
      have hvs : v % 256 = v := Nat.mod_eq_of_lt (by omega)
      rw [hvs, u8Mask_eq hn8, Nat.and_pow_two_sub_one_eq_mod]
      set chunk := data b >>> i % 2 ^ n with hchunk
      have hchunklt : chunk < 2 ^ n := Nat.mod_lt _ (Nat.two_pow_pos n)
      have hshl : (chunk <<< v) % 2 ^ 64 = chunk * 2 ^ v := by
        rw [Nat.shiftLeft_eq]
        apply Nat.mod_eq_of_lt
        calc chunk * 2 ^ v < 2 ^ n * 2 ^ v :=
              (Nat.mul_lt_mul_right (Nat.two_pow_pos v)).mpr hchunklt
          _ = 2 ^ (n + v) := (pow_add 2 _ _).symm
          _ ≤ 2 ^ 64 := Nat.pow_le_pow_right (by norm_num) (by omega)
      rw [hshl, ih (w - n) (by omega) (b + 1) 0 (v + n) (by omega) (by omega)]
      have hor : chunk * 2 ^ v ||| gatherLE data (b + 1) 0 (w - n) * 2 ^ (v + n)
          = gatherLE data (b + 1) 0 (w - n) * 2 ^ (v + n) + chunk * 2 ^ v := by
        rw [Nat.or_comm]
        apply or_eq_add_of_lt
        calc chunk * 2 ^ v < 2 ^ n * 2 ^ v :=
              (Nat.mul_lt_mul_right (Nat.two_pow_pos v)).mpr hchunklt
          _ = 2 ^ (v + n) := by rw [← pow_add]; congr 1; omega
      rw [hor, gatherLE_chunk data hi (by omega : 1 ≤ w), ← hn, ← hchunk]
      have e2 : 2 ^ (v + n) = 2 ^ n * 2 ^ v := by
        rw [← pow_add]; congr 1; omega
      rw [e2]
      ring

/-- C5: for every CAN frame and every signal specification with
`start_bit` in `0..=63` and `width` in `1..=64`, the three decode paths
have identical semantics:
`decode_signal == decode_signal_by_bytes == SignalLayout::from_spec(spec).decode`. -/
theorem C5_three_decoders_agree (frame : CanFrame) (spec : SignalSpec)
    (hstart : spec.start_bit ≤ 63) (hw1 : 1 ≤ spec.signal_size)
    (hw : spec.signal_size ≤ 64) :
    decode_signal frame spec = decode_signal_by_bytes frame spec ∧
      decode_signal frame spec = (SignalLayout.from_spec spec).decode frame spec := by
  have hi : spec.start_bit % 8 ≤ 7 := by omega
  cases horder : spec.byte_order with
  | bigEndian =>
    simp only [decode_signal, decode_signal_by_bytes, SignalLayout.decode,
      SignalLayout.from_spec, SignalLayout.extract, horder]
    rw [decodeBitsBE_eq frame.data spec.signal_size (spec.start_bit / 8)
        (spec.start_bit % 8) 0 hi hw (Nat.two_pow_pos _),
      decodeBytesBE_eq frame.data spec.signal_size (spec.start_bit / 8)
        (spec.start_bit % 8) 0 hi hw (Nat.two_pow_pos _),
      extractSegs_buildBE frame.data spec.signal_size (spec.start_bit / 8)
        (spec.start_bit % 8) hi hw]
    simp
  | littleEndian =>
    simp only [decode_signal, decode_signal_by_bytes, SignalLayout.decode,
      SignalLayout.from_spec, SignalLayout.extract, horder]
    rw [decodeBitsLE_eq frame.data spec.signal_size hw spec.signal_size
        (spec.start_bit / 8) (spec.start_bit % 8) 0 hi (le_refl _) (Nat.two_pow_pos _),
      decodeBytesLE_eq frame.data spec.signal_size hw spec.signal_size
        (spec.start_bit / 8) (spec.start_bit % 8) 0 hi (le_refl _) (Nat.two_pow_pos _),
      extractSegs_buildLE frame.data spec.signal_size (spec.start_bit / 8)
        (spec.start_bit % 8) 0 hi (by omega)]
    simp

/-- Witness for C2 at the motohawk Temperature signal and the golden raw
value 0xDB6 (from the repository's own pack tests). -/
theorem C2_extract_pack_zero_roundtrip_witness :
    temperatureSpec.start_bit ≤ 63 ∧ 1 ≤ temperatureSpec.signal_size ∧
      temperatureSpec.signal_size ≤ 64 ∧ 0xDB6 < 2 ^ temperatureSpec.signal_size ∧
      (SignalLayout.from_spec temperatureSpec).extract
        ((SignalLayout.from_spec temperatureSpec).pack zeroData 0xDB6) = 0xDB6 :=
  ⟨by decide, by decide, by decide, by decide,
    C2_extract_pack_zero_roundtrip temperatureSpec 0xDB6
      (by decide) (by decide) (by decide) (by decide)⟩

/-- Witness for C5 at the golden motohawk frame and Temperature signal. -/
theorem C5_three_decoders_agree_witness :
    temperatureSpec.start_bit ≤ 63 ∧ 1 ≤ temperatureSpec.signal_size ∧
      temperatureSpec.signal_size ≤ 64 ∧
      (decode_signal goldenFrameA5 temperatureSpec
          = decode_signal_by_bytes goldenFrameA5 temperatureSpec ∧
        decode_signal goldenFrameA5 temperatureSpec
          = (SignalLayout.from_spec temperatureSpec).decode goldenFrameA5 temperatureSpec) :=
  ⟨by decide, by decide, by decide,
    C5_three_decoders_agree goldenFrameA5 temperatureSpec
      (by decide) (by decide) (by decide)⟩

/-! ### Parser facts: C1, C4, C6 -/

/-- C1: the claim fails on the code, which is a bug in the code rather
than in the spec.  `get_ascii_base` parses `base dec` correctly and
`CanLogParser::from_bytes` records it, but `CanLogParser::from_file`
overwrites the just-parsed base with `AsciiBase::Hex`
(canlog_reader.rs line 302), so body lines of a `base dec` file opened
through `from_file` are interpreted in base 16: the token `10` parses
as 16 under the recorded base where the header demands 10. -/
theorem C1_from_file_overrides_declared_base :
    get_ascii_base "date Fri Jan 23 23:04:02 2026" "base dec  timestamps absolute"
        = .ok .dec ∧
      canLogParserFromFileConfig "asc" "date Fri Jan 23 23:04:02 2026"
          "base dec  timestamps absolute" = .ok (.vectorAscii, some .hex) ∧
      AsciiBase.hex ≠ AsciiBase.dec ∧
      outcomeData0 (parse_ascii_line "1.0 1  10  Rx   d 1 10" .hex) = some 16 ∧
      outcomeData0 (parse_ascii_line "1.0 1  10  Rx   d 1 10" .dec) = some 10 :=
  ⟨rfl, rfl, by decide, by decide, by decide⟩

/-- C4 counterexample: the frame invariant claimed for the parsers
fails.  A classical candump line with 18 hex digits parses to
`is_fd = false` with `len = 9 > 8`, and a Vector ASCII line with DLC
token `200` parses to `len = 200 > 64`. -/
theorem C4_counterexample_invariant_violated :
    outcomeLenFd (parse_candump_line "(0.0) vcan0 123#112233445566778899")
        = some (9, false) ∧
      ¬(9 : Nat) ≤ 8 ∧
      outcomeLenFd (parse_ascii_line "1.0 1 100 Rx d 200 AA" .hex) = some (200, false) ∧
      ¬(200 : Nat) ≤ 64 :=
  ⟨by decide, by decide, by decide, by decide⟩

set_option maxRecDepth 8000 in
/-- C6: `parse_candump_line` is not total: it panics (out-of-bounds
slice or index) on an odd-length `data_hex`, a one-character timestamp
token, more than 128 hex data digits, and a third token without `#`,
instead of returning a parse error. -/
theorem C6_parse_candump_line_panics :
    parse_candump_line "(1.0) vcan0 123#ABC" = .panicked ∧
      parse_candump_line "( vcan0 1#11" = .panicked ∧
      parse_candump_line "(1.0) vcan0 123#1111111111111111111111111111111111111111111111111111111111111111111111111111111111111111111111111111111111111111111111111111111111" = .panicked ∧
      parse_candump_line "(1.0) vcan0 123" = .panicked :=
  ⟨rfl, rfl, rfl, rfl⟩

theorem candumpHexToBytesGo_ok :
    ∀ (cs : List Char) (idx : Nat) (data d : Nat → Nat),
      candumpHexToBytesGo cs idx data = .ok d →
      (∀ j, j < idx ∨ idx + cs.length / 2 ≤ j → d j = data j) ∧
        (cs ≠ [] → idx + cs.length / 2 ≤ 64) := by
  suffices H : ∀ (len : Nat) (cs : List Char) (idx : Nat) (data d : Nat → Nat),
      cs.length = len → candumpHexToBytesGo cs idx data = .ok d →
      (∀ j, j < idx ∨ idx + cs.length / 2 ≤ j → d j = data j) ∧
        (cs ≠ [] → idx + cs.length / 2 ≤ 64) by
    exact fun cs idx data d h => H cs.length cs idx data d rfl h
  intro len
  induction len using Nat.strong_induction_on with
  | _ len ih =>
    intro cs idx data d hn h
    match cs with
    | [] =>
        simp only [candumpHexToBytesGo] at h
        cases h
        exact ⟨fun j _ => rfl, fun hne => absurd rfl hne⟩
    | [c] =>
        simp only [candumpHexToBytesGo] at h
        cases h
    | c1 :: c2 :: rest =>
        simp only [candumpHexToBytesGo] at h
        split at h
        · cases h
        · split at h
          · cases h
          · have hlen : rest.length < len := by
              rw [← hn]
              simp only [List.length_cons]
              omega
            have hih := ih rest.length hlen rest (idx + 1) _ d rfl h
            have hlen2 : (c1 :: c2 :: rest).length / 2 = rest.length / 2 + 1 := by
              simp; omega
            constructor
            · intro j hj
              have hj2 : j < idx + 1 ∨ idx + 1 + rest.length / 2 ≤ j := by omega
              rw [hih.1 j hj2]
              simp only [updateByte]
              rw [if_neg (by omega)]
            · intro _
              by_cases hrest : rest = []
              · subst hrest
                simp only [List.length_cons, List.length_nil] at hlen2 ⊢
                omega
              · have := hih.2 hrest
                omega

theorem candumpPayload_props (l : List Char) (dataBytes : Nat → Nat)
    (hhex : candump_hex_to_bytes (String.mk l) = .ok dataBytes) :
    l.length / 2 % 256 ≤ 64 ∧ ∀ j, l.length / 2 % 256 ≤ j → dataBytes j = 0 := by
  unfold candump_hex_to_bytes at hhex
  have hgo := candumpHexToBytesGo_ok (String.mk l).toList 0 zeroData dataBytes hhex
  have hlen : (String.mk l).toList = l := rfl
  rw [hlen] at hgo
  have h64 : l.length / 2 ≤ 64 := by
    by_cases hnil : l = []
    · subst hnil; simp
    · have := hgo.2 hnil
      omega
  have hmod : l.length / 2 % 256 = l.length / 2 := Nat.mod_eq_of_lt (by omega)
  rw [hmod]
  refine ⟨h64, fun j hj => ?_⟩
  have := hgo.1 j (by omega)
  simpa [zeroData] using this

theorem parse_candump_line_ok_props (line : String) (frame : CanFrame)
    (h : parse_candump_line line = .ok frame) :
    frame.len ≤ 64 ∧ ∀ j, frame.len ≤ j → frame.data j = 0 := by
  unfold parse_candump_line at h
  dsimp only [] at h
  repeat (any_goals (split at h <;> try cases h))
  all_goals (rename_i dataBytes hhex; exact candumpPayload_props _ dataBytes hhex)

theorem writeAsciiData_ok :
    ∀ (items : List String) (radix len i : Nat) (data d : Nat → Nat),
      writeAsciiData items radix len i data = .ok d →
      ∀ j, j < i ∨ len ≤ j → d j = data j := by
  intro items
  induction items with
  | nil =>
    intro radix len i data d h j hj
    simp only [writeAsciiData] at h
    cases h
    rfl
  | cons item rest ih =>
    intro radix len i data d h j hj
    simp only [writeAsciiData] at h
    split at h
    · cases h
      rfl
    · split at h
      · cases h
      · split at h
        · cases h
        · rw [ih radix len (i + 1) _ d h j (by omega)]
          simp only [updateByte]
          rw [if_neg (by omega)]

theorem asciiData_props (items : List String) (radix len : Nat) (dataBytes : Nat → Nat)
    (hw : writeAsciiData items radix len 0 zeroData = .ok dataBytes) :
    ∀ j, len ≤ j → dataBytes j = 0 := fun j hj => by
  have := writeAsciiData_ok items radix len 0 zeroData dataBytes hw j (Or.inr hj)
  simpa [zeroData] using this

theorem parse_ascii_can_2_0_ok_props (splits : List String) (radix : Nat)
    (frame : CanFrame) (h : parse_ascii_can_2_0 splits radix = .ok frame) :
    ∀ j, frame.len ≤ j → frame.data j = 0 := by
  unfold parse_ascii_can_2_0 at h
  dsimp only [] at h
  repeat (any_goals (split at h <;> try cases h))
  all_goals
    first
      | (intro j hj; rfl)
      | (rename_i dataBytes hhex
         exact fun j hj => asciiData_props _ _ _ dataBytes hhex j hj)

theorem parse_ascii_can_fd_ok_props (splits : List String) (radix : Nat)
    (frame : CanFrame) (h : parse_ascii_can_fd splits radix = .ok frame) :
    ∀ j, frame.len ≤ j → frame.data j = 0 := by
  unfold parse_ascii_can_fd at h
  dsimp only [] at h
  repeat (any_goals (split at h <;> try cases h))
  all_goals
    first
      | (intro j hj; rfl)
      | (rename_i dataBytes hhex
         exact fun j hj => asciiData_props _ _ _ dataBytes hhex j hj)

/-- C4 amended: the parsers guarantee less than the claimed invariant.
Every frame produced by `parse_candump_line` has `len ≤ 64` and zero
payload bytes at indices at and above `len`; every frame produced by
`parse_ascii_line` has zero payload bytes at indices at and above
`len`, but its `len` may exceed 64 (the decimal DLC token is accepted
up to 255), and in both parsers `is_fd == false` does not bound `len`
by 8. -/
theorem C4_amended_parser_invariants :
    (∀ line frame, parse_candump_line line = .ok frame →
        frame.len ≤ 64 ∧ ∀ j, frame.len ≤ j → frame.data j = 0) ∧
      (∀ line base frame, parse_ascii_line line base = .ok frame →
        ∀ j, frame.len ≤ j → frame.data j = 0) := by
  refine ⟨fun line frame h => parse_candump_line_ok_props line frame h,
    fun line base frame h => ?_⟩
  unfold parse_ascii_line at h
  dsimp only [] at h
  split at h
  · cases h
  split at h
  · exact parse_ascii_can_fd_ok_props _ _ frame h
  · exact parse_ascii_can_2_0_ok_props _ _ frame h

/-- Witness for the amended C4 at a real candump line. -/
theorem C4_amended_parser_invariants_witness :
    (match parse_candump_line "(1436509052.249713) vcan0 044#2A366C2BBA" with
      | .ok f => f.len ≤ 64 ∧ f.data 64 = 0
      | _ => False) := by
  cases hp : parse_candump_line "(1436509052.249713) vcan0 044#2A366C2BBA" with
  | ok f =>
      have h := C4_amended_parser_invariants.1 _ f hp
      exact ⟨h.1, h.2 64 h.1⟩
  | error e =>
      have hv : outcomeLenFd (parse_candump_line "(1436509052.249713) vcan0 044#2A366C2BBA")
          = some (5, false) := by decide
      rw [hp] at hv
      simp [outcomeLenFd] at hv
  | panicked =>
      have hv : outcomeLenFd (parse_candump_line "(1436509052.249713) vcan0 044#2A366C2BBA")
          = some (5, false) := by decide
      rw [hp] at hv
      simp [outcomeLenFd] at hv

/-! ### Layout construction totality: C7 -/

theorem buildSegmentsBE_nil_iff {b i r : Nat} : buildSegmentsBE b i r = [] ↔ r = 0 := by
  rw [buildSegmentsBE]
  split
  · rename_i h; simp [h]
  · rename_i h; simp [h]

theorem buildSegmentsLE_nil_iff {b i r v : Nat} :
    buildSegmentsLE b i r v = [] ↔ (r = 0 ∨ 8 ≤ i) := by
  rw [buildSegmentsLE]
  split
  · rename_i h; simp [h]
  · rename_i h; simp [h]

/-- C7 counterexample: `SignalLayout::from_spec` never fails.  For a
width-0 spec it successfully returns an empty layout, and for a spec
whose spans pass byte index 63 (start bit 520) it successfully returns
spans referencing bytes 65 and 66 — there is no schema-error indication
anywhere in layout construction. -/
theorem C7_counterexample_construction_succeeds :
    SignalLayout.from_spec zeroWidthSpec = { segments := [], signal_size := 0 } ∧
      (SignalLayout.from_spec offEndSpec).segments =
        [{ byteIndex := 65, bitOffset := 0, numBits := 1, valueShift := 7 },
         { byteIndex := 66, bitOffset := 1, numBits := 7, valueShift := 0 }] := by
  constructor
  · simp [SignalLayout.from_spec, zeroWidthSpec, buildSegmentsBE]
  · simp [SignalLayout.from_spec, offEndSpec, buildSegmentsBE]

/-- C7 amended: layout construction is total and yields no error
indication for any spec; it returns the spec's width unchanged, and the
span list is empty exactly for width 0 (out-of-range specs yield spans
referencing bytes at or beyond 64 rather than failing). -/
theorem C7_amended_from_spec_total (spec : SignalSpec) :
    (SignalLayout.from_spec spec).signal_size = spec.signal_size ∧
      ((SignalLayout.from_spec spec).segments = [] ↔ spec.signal_size = 0) := by
  cases horder : spec.byte_order
  · simp [SignalLayout.from_spec, horder, buildSegmentsBE_nil_iff]
  · simp [SignalLayout.from_spec, horder, buildSegmentsLE_nil_iff]
    omega

/-- Witness for the amended C7 at the Temperature spec. -/
theorem C7_amended_from_spec_total_witness :
    (SignalLayout.from_spec temperatureSpec).signal_size = temperatureSpec.signal_size ∧
      ((SignalLayout.from_spec temperatureSpec).segments = []
        ↔ temperatureSpec.signal_size = 0) :=
  C7_amended_from_spec_total temperatureSpec

/-! ### Encoder: C8, C9, C10 -/

theorem firstUnknown_none_iff (m : MessageSpec) (signals : List (String × ℚ)) :
    firstUnknown m signals = none ↔ ∀ p ∈ signals, get_signal_spec m p.1 ≠ none := by
  induction signals with
  | nil => simp [firstUnknown]
  | cons p rest ih =>
    obtain ⟨n, v⟩ := p
    simp only [firstUnknown]
    cases hl : get_signal_spec m n with
    | none => simp [hl]
    | some spec => simp [hl, ih]

theorem encodeLoop_error (m : MessageSpec) :
    ∀ (signals : List (String × ℚ)) (n : String) (frame : CanFrame),
      firstUnknown m signals = some n →
      encodeSignalsLoop m signals frame = .error ("unknown signal: " ++ n) := by
  intro signals
  induction signals with
  | nil => intro n frame h; simp [firstUnknown] at h
  | cons p rest ih =>
    intro n frame h
    obtain ⟨nm, v⟩ := p
    simp only [firstUnknown] at h
    simp only [encodeSignalsLoop]
    cases hl : get_signal_spec m nm with
    | none =>
        simp only [hl] at h ⊢
        cases h
        rfl
    | some spec =>
        simp only [hl] at h ⊢
        exact ih n _ h

theorem encodeLoop_ok (m : MessageSpec) :
    ∀ (signals : List (String × ℚ)) (frame : CanFrame),
      firstUnknown m signals = none →
      ∃ frame2, encodeSignalsLoop m signals frame = .ok frame2 := by
  intro signals
  induction signals with
  | nil => intro frame _; exact ⟨frame, rfl⟩
  | cons p rest ih =>
    intro frame h
    obtain ⟨nm, v⟩ := p
    simp only [firstUnknown] at h
    simp only [encodeSignalsLoop]
    cases hl : get_signal_spec m nm with
    | none => simp [hl] at h
    | some spec =>
        simp only [hl] at h ⊢
        exact ih _ h

theorem encodeLoop_meta (m : MessageSpec) :
    ∀ (signals : List (String × ℚ)) (frame frame2 : CanFrame),
      encodeSignalsLoop m signals frame = .ok frame2 →
      frame2.id = frame.id ∧ frame2.len = frame.len ∧
        frame2.timestamp = frame.timestamp ∧ frame2.channel = frame.channel ∧
        frame2.is_fd = frame.is_fd ∧ frame2.is_rx = frame.is_rx := by
  intro signals
  induction signals with
  | nil =>
    intro frame frame2 h
    simp only [encodeSignalsLoop] at h
    cases h
    exact ⟨rfl, rfl, rfl, rfl, rfl, rfl⟩
  | cons p rest ih =>
    intro frame frame2 h
    obtain ⟨nm, v⟩ := p
    simp only [encodeSignalsLoop] at h
    cases hl : get_signal_spec m nm with
    | none => rw [hl] at h; simp at h
    | some spec =>
        simp only [hl] at h
        have hm := ih _ frame2 h
        simpa using hm

theorem u8Mask_testBit (n t : Nat) :
    (u8Mask n).testBit t = (decide (t < 8) && (2 ^ n - 1).testBit t) := by
  rw [u8Mask, Nat.shiftLeft_eq, Nat.one_mul]
  have h256 : (256 : Nat) = 2 ^ 8 := by norm_num
  rw [h256, Nat.testBit_mod_two_pow]

/-- A byte written by one `pack` span keeps bit `k` clear when the span
does not cover `k` and the bit was clear before. -/
theorem packedByte_testBit_false {x raw shift off n k : Nat}
    (hx : x.testBit k = false) (hnc : ¬(off ≤ k ∧ k < off + n)) :
    ((x &&& (255 ^^^ ((u8Mask n <<< off) % 256))) |||
      ((((raw >>> shift) % 256) &&& u8Mask n) <<< off) % 256).testBit k = false := by
  have h256 : (256 : Nat) = 2 ^ 8 := by norm_num
  rw [h256]
  simp only [Nat.testBit_or, Nat.testBit_and, Nat.testBit_mod_two_pow,
    Nat.testBit_shiftLeft, hx, Bool.false_and, Bool.false_or]
  by_cases hk8 : k < 8
  · by_cases hoff : off ≤ k
    · have hkn : ¬(k - off) < n := by omega
      simp only [Nat.testBit_and, u8Mask_testBit, Nat.testBit_two_pow_sub_one]
      simp [hkn]
    · simp [hoff]
  · simp [hk8]

theorem packSegs_uncovered_false :
    ∀ (segs : List BitSpan) (data : Nat → Nat) (raw j k : Nat),
      (∀ s ∈ segs, ¬ coversBit s j k) → (data j).testBit k = false →
      (packSegs segs data raw j).testBit k = false := by
  intro segs
  induction segs with
  | nil => intro data raw j k _ hd; exact hd
  | cons s rest ih =>
    intro data raw j k hnc hd
    simp only [packSegs]
    apply ih
    · intro t ht
      exact hnc t (List.mem_cons_of_mem s ht)
    · simp only [updateByte]
      split
      · rename_i hj
        apply packedByte_testBit_false
        · rw [← hj]; exact hd
        · intro hcontra
          exact hnc s (List.mem_cons_self s rest) ⟨hj.symm, hcontra.1, hcontra.2⟩
      · exact hd

theorem encodeLoop_zero_bits (m : MessageSpec) :
    ∀ (signals : List (String × ℚ)) (frame frame2 : CanFrame),
      encodeSignalsLoop m signals frame = .ok frame2 →
      ∀ j k,
        (∀ p ∈ signals, ∀ sp, get_signal_spec m p.1 = some sp →
          ∀ seg ∈ (SignalLayout.from_spec sp).segments, ¬ coversBit seg j k) →
        (frame.data j).testBit k = false → (frame2.data j).testBit k = false := by
  intro signals
  induction signals with
  | nil =>
    intro frame frame2 h j k _ hb
    simp only [encodeSignalsLoop] at h
    cases h
    exact hb
  | cons p rest ih =>
    intro frame frame2 h j k hnc hb
    obtain ⟨nm, v⟩ := p
    simp only [encodeSignalsLoop] at h
    cases hl : get_signal_spec m nm with
    | none => rw [hl] at h; simp at h
    | some spec =>
        simp only [hl] at h
        apply ih _ frame2 h j k
        · intro q hq sp hsp seg hseg
          exact hnc q (List.mem_cons_of_mem _ hq) sp hsp seg hseg
        · show ((SignalLayout.from_spec spec).pack frame.data
              (compute_raw_value v spec) j).testBit k = false
          unfold SignalLayout.pack
          apply packSegs_uncovered_false
          · intro seg hseg
            exact hnc (nm, v) (List.mem_cons_self _ _) spec hl seg hseg
          · exact hb

/-- C8 amended: `encode_message` errs exactly when a supplied signal
name is not in the message spec, the error names the first offending
signal, and a successful encode carries the requested id, the declared
byte size cast to `u8` (`message_size % 256`, not the declared size
itself — see the counterexample), and zero payload bits outside the
spans of the supplied signals. -/
theorem C8_amended_encode_errors (m : MessageSpec) (signals : List (String × ℚ))
    (messageId : Nat) :
    ((∃ p ∈ signals, get_signal_spec m p.1 = none) ↔
        ∃ e, encode_message m signals messageId = .error e) ∧
      (∀ n, firstUnknown m signals = some n →
        encode_message m signals messageId = .error ("unknown signal: " ++ n)) ∧
      (∀ frame, encode_message m signals messageId = .ok frame →
        frame.id = messageId ∧ frame.len = m.message_size % 256 ∧
          ∀ j k,
            (∀ p ∈ signals, ∀ sp, get_signal_spec m p.1 = some sp →
              ∀ seg ∈ (SignalLayout.from_spec sp).segments, ¬ coversBit seg j k) →
            (frame.data j).testBit k = false) := by
  refine ⟨⟨?_, ?_⟩, ?_, ?_⟩
  · rintro ⟨p, hp, hnone⟩
    have hne : firstUnknown m signals ≠ none := by
      intro hfn
      exact (firstUnknown_none_iff m signals).mp hfn p hp hnone
    cases hfu : firstUnknown m signals with
    | none => exact absurd hfu hne
    | some n => exact ⟨_, encodeLoop_error m signals n _ hfu⟩
  · rintro ⟨e, he⟩
    by_contra hno
    push_neg at hno
    have hfu := (firstUnknown_none_iff m signals).mpr fun p hp => hno p hp
    obtain ⟨f2, hf2⟩ := encodeLoop_ok m signals _ hfu
    unfold encode_message at he
    rw [hf2] at he
    cases he
  · intro n hn
    unfold encode_message
    exact encodeLoop_error m signals n _ hn
  · intro frame h
    unfold encode_message at h
    have hm := encodeLoop_meta m signals _ frame h
    refine ⟨hm.1, hm.2.1, fun j k hnc => ?_⟩
    apply encodeLoop_zero_bits m signals _ frame h j k hnc
    simp [CanFrame.default]

/-- Witness for the amended C8: an unknown signal name yields the
naming error. -/
theorem C8_amended_encode_errors_witness :
    encode_message nineByteMessageSpec [("Bogus", 1)] 5
      = .error ("unknown signal: " ++ "Bogus") :=
  (C8_amended_encode_errors nineByteMessageSpec [("Bogus", 1)] 5).2.1 "Bogus" (by decide)

/-- C8 counterexample: the declared byte size is stored through an
`as u8` cast, so a message of declared size 256 encodes to a frame of
length 0, not 256. -/
theorem C8_counterexample_len_truncated :
    exceptFrameLen (encode_message bigMessageSpec [] 7) = some 0 ∧
      bigMessageSpec.message_size = 256 ∧ (0 : Nat) ≠ 256 :=
  ⟨rfl, rfl, by decide⟩

theorem builderSetAll_map_build (m : MessageSpec) :
    ∀ (signals : List (String × ℚ)) (frame : CanFrame),
      (builderSetAll ⟨m, frame⟩ signals).map CanFrameBuilder.build
        = encodeSignalsLoop m signals frame := by
  intro signals
  induction signals with
  | nil => intro frame; rfl
  | cons p rest ih =>
    intro frame
    obtain ⟨n, v⟩ := p
    simp only [builderSetAll, CanFrameBuilder.set, encodeSignalsLoop]
    cases hl : get_signal_spec m n with
    | none => simp [hl, Except.map]
    | some spec =>
        simp only [hl]
        exact ih _

/-- C9: building a frame with `CanFrameBuilder::new` followed by `set`
for each pair in order and `build` is the same computation as a single
`encode_message` call: the results agree as whole `Except` values, so
the frames (id, len, payload) coincide and a `set` chain errs exactly
when `encode_message` errs, with the same error. -/
theorem C9_builder_equivalent_to_encode (m : MessageSpec) (signals : List (String × ℚ))
    (messageId : Nat) :
    (builderSetAll (CanFrameBuilder.new m messageId) signals).map CanFrameBuilder.build
      = encode_message m signals messageId :=
  builderSetAll_map_build m signals
    { CanFrame.default with id := messageId, len := m.message_size % 256 }

/-- C10 counterexample: the rider "a declared byte size above 8 still
yields `len > 8`" fails once the `as u8` cast wraps.  A message with
declared byte size 256 (which exceeds 8) encodes successfully to a
frame of length 0, and 0 is not above 8. -/
theorem C10_counterexample_large_size_rider_fails :
    bigMessageSpec.message_size = 256 ∧ 8 < bigMessageSpec.message_size ∧
      exceptFrameLen (encode_message bigMessageSpec [] 3) = some 0 ∧
      ¬ 8 < (0 : Nat) :=
  ⟨rfl, by decide, rfl, by decide⟩

/-- C10 amended: frames produced by `encode_message`, and by the
builder when timestamp/channel are not set, keep every
`CanFrame::default()` field other than id, len and packed data:
`is_fd = false`, `is_rx = false`, `timestamp = 0`, empty channel.  The
claim's rider only holds for the size after the `as u8` cast: when the
declared byte size reduced mod 256 exceeds 8 the frame has
`is_fd = false` with `len > 8`, but a declared size above 8 whose
residue mod 256 is at most 8 (e.g. 256, see the counterexample) does
not give `len > 8`. -/
theorem C10_amended_encode_defaults (m : MessageSpec) (signals : List (String × ℚ))
    (messageId : Nat) :
    (∀ frame, encode_message m signals messageId = .ok frame →
        frame.is_fd = false ∧ frame.is_rx = false ∧ frame.timestamp = 0 ∧
          frame.channel = "" ∧ frame.len = m.message_size % 256 ∧
          (8 < m.message_size % 256 → frame.is_fd = false ∧ 8 < frame.len)) ∧
      (∀ b, builderSetAll (CanFrameBuilder.new m messageId) signals = .ok b →
        b.build.is_fd = false ∧ b.build.is_rx = false ∧
          b.build.timestamp = 0 ∧ b.build.channel = "") := by
  constructor
  · intro frame h
    unfold encode_message at h
    have hm := encodeLoop_meta m signals _ frame h
    refine ⟨hm.2.2.2.2.1, hm.2.2.2.2.2, hm.2.2.1, hm.2.2.2.1, hm.2.1, fun hgt => ⟨hm.2.2.2.2.1, ?_⟩⟩
    rw [hm.2.1]
    exact hgt
  · intro b hb
    have hb2 : builderSetAll
        ⟨m, { CanFrame.default with id := messageId, len := m.message_size % 256 }⟩ signals
        = .ok b := hb
    have h2 := builderSetAll_map_build m signals
      { CanFrame.default with id := messageId, len := m.message_size % 256 }
    rw [hb2] at h2
    simp only [Except.map] at h2
    have hm := encodeLoop_meta m signals _ b.build h2.symm
    exact ⟨hm.2.2.2.2.1, hm.2.2.2.2.2, hm.2.2.1, hm.2.2.2.1⟩

/-- Witness for the amended C10 at a declared byte size of 9 with no
signals. -/
theorem C10_amended_encode_defaults_witness :
    ({ CanFrame.default with id := 9, len := 9 } : CanFrame).is_fd = false ∧
      ({ CanFrame.default with id := 9, len := 9 } : CanFrame).is_rx = false ∧
      ({ CanFrame.default with id := 9, len := 9 } : CanFrame).timestamp = 0 ∧
      ({ CanFrame.default with id := 9, len := 9 } : CanFrame).channel = "" ∧
      ({ CanFrame.default with id := 9, len := 9 } : CanFrame).len
          = nineByteMessageSpec.message_size % 256 ∧
      (({ CanFrame.default with id := 9, len := 9 } : CanFrame).is_fd = false ∧
        8 < ({ CanFrame.default with id := 9, len := 9 } : CanFrame).len) := by
  have h := (C10_amended_encode_defaults nineByteMessageSpec [] 9).1
    { CanFrame.default with id := 9, len := 9 } rfl
  exact ⟨h.1, h.2.1, h.2.2.1, h.2.2.2.1, h.2.2.2.2.1, h.2.2.2.2.2 (by decide)⟩

end Rocketcan
